import Mathlib

/-!
# go-ssz merkleization helpers (`helpers.go`)

A shallow embedding of `pack`, `merkleize`, `mixInLength`, `mixInType` and
`isPowerTwo`, followed by theorems about them. What the package declares
outside `helpers.go` is modelled from the spec: the constant `BytesPerChunk`,
the root cache, and SHA-256 as the hash of the reference test.

Modelling conventions.

* A Go `[]byte` is a `List UInt8` and a `[][]byte` a list of those: slices are
  values, so an `append` to one slice never writes into the bytes of another.
  `merkleizeMem` is `merkleize` on slice headers and backing arrays, where
  `append` writes in place when the capacity allows; the two agree on chunks
  none of which lies in the spare capacity of another
  (`merkleizeMem_eq_merkleize`).
* A Go `[32]byte` is a `Digest`, a byte list of length exactly 32.
* A Go `for cond { ... }` loop is a function with a fuel argument: `outOfFuel`
  is returned when the fuel is used up before the condition turns false.
* A run-time panic (index or slice bound out of range) is the outcome `panic`.
* A returned Go `error` is a `GoError`; `none` is the `nil` error.
* Go `int` arithmetic is done in `Nat`: every number below is a slice length or
  an index bounded by one, far below `2^63`.
-/

namespace SSZ

/-! ## The code of `helpers.go` -/

/-- One byte. -/
abbrev Byte := UInt8

/-- A Go `[32]byte`. -/
abbrev Digest := { l : List Byte // l.length = 32 }

/-- A Go `error` value; `none` is `nil`. -/
abbrev GoError := Option String

/-- Outcome of running a piece of Go code. -/
inductive Exec (α : Type) where
  | done (a : α)
  | panic
  | outOfFuel
  deriving DecidableEq, Repr

/-- Sequencing of outcomes. -/
def Exec.bind {α β : Type} (x : Exec α) (f : α → Exec β) : Exec β :=
  match x with
  | .done a => f a
  | .panic => .panic
  | .outOfFuel => .outOfFuel

/-- Modelled from the spec: the constant `BytesPerChunk` is declared outside
`helpers.go`; the spec fixes `BYTES_PER_CHUNK = 32`. -/
def BytesPerChunk : Nat := 32

/-- The value of `make([]byte, n)`: `n` zero bytes. -/
def makeBytes (n : Nat) : List Byte := List.replicate n 0

/-- The zero value of `[32]byte`. -/
def zeroDigest : Digest := ⟨List.replicate 32 0, by simp⟩

/-- The slice expression `a[i:j]`; it panics unless `i ≤ j ≤ len(a)`. -/
def slice (a : List Byte) (i j : Nat) : Exec (List Byte) :=
  if i ≤ j ∧ j ≤ a.length then .done ((a.drop i).take (j - i)) else .panic

/-- The range loop of `pack` (lines 23-26): append every item to the buffer. -/
def flattenItems (serializedItems : List (List Byte)) : List Byte :=
  serializedItems.foldl (fun orderedItems item => orderedItems ++ item) []

/-- The chunking loop of `pack` (lines 29-39), started at index `i` with the
chunks collected so far. -/
def chunkLoop (orderedItems : List Byte) (numItems : Nat) :
    Nat → Nat → List (List Byte) → Exec (List (List Byte))
  | 0, _, _ => .outOfFuel
  | fuel + 1, i, chunks =>
    if i < numItems then
      let j := i + BytesPerChunk
      let j := if j > numItems then numItems else j
      (slice orderedItems i j).bind fun c =>
        chunkLoop orderedItems numItems fuel (i + BytesPerChunk) (chunks ++ [c])
    else .done chunks

/-- The padding loop of `pack` (lines 43-45): append zero bytes to the last
chunk while it is shorter than `BytesPerChunk`. -/
def padLastLoop : Nat → List Byte → Exec (List Byte)
  | 0, _ => .outOfFuel
  | fuel + 1, lastChunk =>
    if lastChunk.length < BytesPerChunk then padLastLoop fuel (lastChunk ++ [0])
    else .done lastChunk

/-- The function `pack` of `helpers.go` (lines 13-48). -/
def pack (fuel : Nat) (serializedItems : List (List Byte)) :
    Exec (List (List Byte) × GoError) :=
  match serializedItems with
  | [] => .done ([makeBytes BytesPerChunk], none)
  | item0 :: _ =>
    if item0.length = BytesPerChunk then .done (serializedItems, none)
    else
      let orderedItems := flattenItems serializedItems
      let numItems := orderedItems.length
      (chunkLoop orderedItems numItems fuel 0 []).bind fun chunks =>
        -- `chunks[len(chunks)-1]` is out of range when `chunks` is empty
        if chunks.length = 0 then .panic
        else
          match chunks[chunks.length - 1]? with
          | none => .panic
          | some lastChunk =>
            (padLastLoop fuel lastChunk).bind fun lastChunk =>
              .done (chunks.set (chunks.length - 1) lastChunk, none)

/-- The function `isPowerTwo` of `helpers.go` (lines 93-100). The `float64`
expression `math.Floor(elem) == math.Ceil(elem)` with `elem = math.Log2(num)`
is taken in exact arithmetic: `Nat.log 2 n` is the floor and `Nat.clog 2 n`
the ceiling of the base-2 logarithm of `n ≥ 1`. Rounding in `float64` is not
modelled here; `isPowerTwoFloat64` below keeps the rounding of `float64(num)`. -/
def isPowerTwo (num : Nat) : Bool :=
  if num = 0 then false
  else Nat.log 2 num == Nat.clog 2 num

/-- The statement `copy(root[:], chunk)` on a zero `root`: the first 32 bytes
of `chunk`, followed by zeros when `chunk` is shorter. -/
def copyToRoot (chunk : List Byte) : Digest :=
  ⟨chunk.take 32 ++ List.replicate (32 - chunk.length) 0, by
    simp only [List.length_append, List.length_take, List.length_replicate]; omega⟩

/-- The padding loop of `merkleize` (lines 60-62): append zero chunks until
the number of chunks is a power of two. -/
def padLoop : Nat → List (List Byte) → Exec (List (List Byte))
  | 0, _ => .outOfFuel
  | fuel + 1, chunks =>
    if !isPowerTwo chunks.length then padLoop fuel (chunks ++ [makeBytes BytesPerChunk])
    else .done chunks

/-- The inner loop of `merkleize` (lines 71-74), started at index `i` with the
layer collected so far; `n` is `len(hashLayer)`. The slice
`append(chunks[i], chunks[i+1]...)` is taken as the bytes of the two chunks;
`layerLoopMem` keeps the write into the backing array of `chunks[i]`. -/
def layerLoop (Hash : List Byte → Digest) (chunks : List (List Byte)) (n : Nat) :
    Nat → Nat → List Digest → Exec (List Digest)
  | 0, _, _ => .outOfFuel
  | fuel + 1, i, layer =>
    if i < n then
      match chunks[i]?, chunks[i + 1]? with
      | some l, some r =>
        layerLoop Hash chunks n fuel (i + 2) (layer ++ [Hash (l ++ r)])
      | _, _ => .panic
    else .done layer

/-- The outer loop of `merkleize` (lines 69-76): build the next layer while
the current one has more than one element. The inner loop gets the fuel
`innerFuel`. -/
def reduceLoop (Hash : List Byte → Digest) (chunks : List (List Byte)) (innerFuel : Nat) :
    Nat → List Digest → Exec (List Digest)
  | 0, _ => .outOfFuel
  | fuel + 1, hashLayer =>
    if hashLayer.length > 1 then
      (layerLoop Hash chunks hashLayer.length innerFuel 0 []).bind fun layer =>
        reduceLoop Hash chunks innerFuel fuel layer
    else .done hashLayer

/-- The function `merkleize` of `helpers.go` (lines 54-78). `Hash` is the
package's hash function, declared outside `helpers.go`. -/
def merkleize (Hash : List Byte → Digest) (fuel : Nat) (chunks : List (List Byte)) :
    Exec (Digest × GoError) :=
  if chunks.length = 1 then
    match chunks[0]? with
    | none => .panic
    | some c => .done (copyToRoot c, none)
  else
    (padLoop fuel chunks).bind fun chunks =>
      let hashLayer := List.replicate chunks.length zeroDigest
      (reduceLoop Hash chunks fuel fuel hashLayer).bind fun hashLayer =>
        match hashLayer[0]? with
        | none => .panic
        | some root => .done (root, none)

/-- The function `mixInLength` of `helpers.go` (lines 82-84). -/
def mixInLength (Hash : List Byte → Digest) (root : Digest) (length : List Byte) : Digest :=
  Hash (root.val ++ length)

/-- The function `mixInType` of `helpers.go` (lines 88-90). -/
def mixInType (Hash : List Byte → Digest) (root : Digest) (typeIndex : List Byte) : Digest :=
  Hash (root.val ++ typeIndex)

/-! ## Closed forms used in the proofs -/

/-- The `t`-th 32-byte window of `a` counted from offset `i` (shorter at the end of `a`). -/
def window (a : List Byte) (i t : Nat) : List Byte := (a.drop (i + 32 * t)).take 32

/-- A chunk right-padded with zero bytes to 32 bytes. -/
def padTo32 (c : List Byte) : List Byte := c ++ List.replicate (32 - c.length) 0

/-- The chunks `pack` builds out of the flat buffer `a`. -/
def packedChunks (a : List Byte) : List (List Byte) :=
  (List.range ((a.length + 31) / 32)).map fun t => padTo32 (window a 0 t)

/-- The number of zero chunks the padding loop of `merkleize` appends to `n` chunks. -/
def padCount (n : Nat) : Nat := 2 ^ Nat.clog 2 n - n

/-- The hash of the `t`-th pair of `chunks`: `Hash(chunks[2t] ++ chunks[2t+1])`. -/
def pairHash (Hash : List Byte → Digest) (chunks : List (List Byte)) (t : Nat) : Digest :=
  Hash ((chunks[2 * t]?).getD [] ++ (chunks[2 * t + 1]?).getD [])

/-! ## The reference computation of the spec -/

/-- The chunk sequence right-extended with all-zero 32-byte chunks to the
smallest power of two at least its length, in the words of the spec. -/
def specPad (chunks : List (List Byte)) : List (List Byte) :=
  chunks ++ List.replicate (2 ^ Nat.clog 2 chunks.length - chunks.length) (List.replicate 32 0)

/-- The next layer in the words of the spec:
`[Hash(L[0] ++ L[1]), Hash(L[2] ++ L[3]), ...]`. -/
def specNextLayer (Hash : List Byte → Digest) : List (List Byte) → List (List Byte)
  | l :: r :: rest => (Hash (l ++ r)).val :: specNextLayer Hash rest
  | _ => []

/-- Repeated halving in the words of the spec: replace the layer by the next
one until one digest remains (at most `rounds` times). -/
def specReduce (Hash : List Byte → Digest) : Nat → List (List Byte) → Option (List Byte)
  | _, [d] => some d
  | 0, _ => none
  | rounds + 1, layer => specReduce Hash rounds (specNextLayer Hash layer)

/-- The root of the full binary hash tree over the padded chunks, in the words
of the spec. -/
def specMerkleRoot (Hash : List Byte → Digest) (chunks : List (List Byte)) : Option (List Byte) :=
  specReduce Hash chunks.length (specPad chunks)

/-! ## Sample data -/

/-- A stand-in for the package's hash function, used to run `merkleize` on
concrete chunks: the first 16 bytes of the input followed by its bytes 32-47. -/
def sampleHash (data : List Byte) : Digest :=
  copyToRoot (data.take 16 ++ (data.drop 32).take 16)

/-- The chunk whose first byte is `b` and whose other 31 bytes are zero. -/
def sampleChunk (b : Byte) : List Byte := b :: List.replicate 31 0

/-! ## The reduction loop with its layers recorded -/

/-- The outer loop of `merkleize` (lines 69-76) with a record of the values
`hashLayer` takes at the head of the loop, first to last. -/
def reduceLayers (Hash : List Byte → Digest) (chunks : List (List Byte)) (innerFuel : Nat) :
    Nat → List Digest → Exec (List (List Digest))
  | 0, _ => .outOfFuel
  | fuel + 1, hashLayer =>
    if hashLayer.length > 1 then
      (layerLoop Hash chunks hashLayer.length innerFuel 0 []).bind fun layer =>
        (reduceLayers Hash chunks innerFuel fuel layer).bind fun layers =>
          .done (hashLayer :: layers)
    else .done [hashLayer]

/-! ## The root cache -/

/-- Modelled from the spec: the root cache is declared outside `helpers.go`
(only `useCache` and `HashTreeRoot` appear, in the tests). By section 4.4 of the
spec a cache maps a fingerprint to a previously computed root. -/
abbrev RootCache (K : Type) := List (K × Digest)

/-- Modelled from the spec: the lookup of a fingerprint in the root cache
(missing from `helpers.go`), the root of the first entry with that key. -/
def cacheLookup {K : Type} [DecidableEq K] (cache : RootCache K) (key : K) : Option Digest :=
  match cache with
  | [] => none
  | (k, root) :: rest => if k = key then some root else cacheLookup rest key

/-- Modelled from the spec: one call of the cached `HashTreeRoot` (missing from
`helpers.go`). Section 4.4: when the cache is enabled, a lookup by fingerprint
that hits returns the stored root without computing; a miss computes the root
and stores it before returning. When it is disabled the root is computed.
The result is the root and the cache after the call. -/
def hashTreeRootCached {V K : Type} [DecidableEq K] (useCache : Bool) (fingerprint : V → K)
    (computeRoot : V → Digest) (cache : RootCache K) (val : V) : Digest × RootCache K :=
  if useCache then
    match cacheLookup cache (fingerprint val) with
    | some root => (root, cache)
    | none => (computeRoot val, (fingerprint val, computeRoot val) :: cache)
  else (computeRoot val, cache)

/-- The roots returned by a sequence of calls, the cache being handed from each
call to the next. Every call comes with the value `useCache` has when it is
made, so the switch may be thrown between calls. -/
def rootsOfCalls {V K : Type} [DecidableEq K] (fingerprint : V → K)
    (computeRoot : V → Digest) : RootCache K → List (Bool × V) → List Digest
  | _, [] => []
  | cache, (useCache, val) :: calls =>
    (hashTreeRootCached useCache fingerprint computeRoot cache val).1 ::
      rootsOfCalls fingerprint computeRoot
        (hashTreeRootCached useCache fingerprint computeRoot cache val).2 calls

/-! ## `isPowerTwo` with the rounding of `float64(num)` -/

/-- The number of binary digits of `n`, for `n` below `2 ^ fuel`. -/
def bitLengthAux : Nat → Nat → Nat
  | 0, _ => 0
  | fuel + 1, n => if n = 0 then 0 else bitLengthAux fuel (n / 2) + 1

/-- The number of binary digits of a Go `int` `n ≥ 0` (below `2 ^ 64`). -/
def bitLength (n : Nat) : Nat := bitLengthAux 64 n

/-- The conversion `float64(num)` of a non-negative `int`: the value is kept
when it has at most 53 binary digits, and is otherwise rounded to 53
significant digits, to the nearest and on a tie to the even one. The result is
the (integer) value of the `float64`. -/
def toFloat64 (num : Nat) : Nat :=
  if bitLength num ≤ 53 then num
  else
    let unit := 2 ^ (bitLength num - 53)
    let q := num / unit
    let r := num % unit
    if 2 * r < unit then q * unit
    else if unit < 2 * r then (q + 1) * unit
    else if q % 2 = 0 then q * unit
    else (q + 1) * unit

/-- The function `isPowerTwo` of `helpers.go` (lines 93-100) with the rounding
of `float64(num)` kept. `math.Log2(x)` is exact when `x` is a power of two (the
library returns `float64(exp - 1)` when `Frexp(x)` has the fraction `0.5`), so
`elem` is whole and `Floor(elem) == Ceil(elem)`. For any other `x` the library
computes `Log(frac)*(1/Ln2) + float64(exp)` in `float64`, which is not
modelled: `logIsWhole x` stands for the outcome of
`math.Floor(elem) == math.Ceil(elem)` there. -/
def isPowerTwoFloat64 (logIsWhole : Nat → Bool) (num : Nat) : Bool :=
  if num = 0 then false
  else if toFloat64 num = 2 ^ (bitLength (toFloat64 num) - 1) then true
  else logIsWhole (toFloat64 num)


/-! ## SHA-256 and the record of the reference test -/

/-- The round constants of SHA-256. -/
def sha256K : List Nat :=
  [0x428a2f98, 0x71374491, 0xb5c0fbcf, 0xe9b5dba5, 0x3956c25b, 0x59f111f1, 0x923f82a4, 0xab1c5ed5,
   0xd807aa98, 0x12835b01, 0x243185be, 0x550c7dc3, 0x72be5d74, 0x80deb1fe, 0x9bdc06a7, 0xc19bf174,
   0xe49b69c1, 0xefbe4786, 0x0fc19dc6, 0x240ca1cc, 0x2de92c6f, 0x4a7484aa, 0x5cb0a9dc, 0x76f988da,
   0x983e5152, 0xa831c66d, 0xb00327c8, 0xbf597fc7, 0xc6e00bf3, 0xd5a79147, 0x06ca6351, 0x14292967,
   0x27b70a85, 0x2e1b2138, 0x4d2c6dfc, 0x53380d13, 0x650a7354, 0x766a0abb, 0x81c2c92e, 0x92722c85,
   0xa2bfe8a1, 0xa81a664b, 0xc24b8b70, 0xc76c51a3, 0xd192e819, 0xd6990624, 0xf40e3585, 0x106aa070,
   0x19a4c116, 0x1e376c08, 0x2748774c, 0x34b0bcb5, 0x391c0cb3, 0x4ed8aa4a, 0x5b9cca4f, 0x682e6ff3,
   0x748f82ee, 0x78a5636f, 0x84c87814, 0x8cc70208, 0x90befffa, 0xa4506ceb, 0xbef9a3f7, 0xc67178f2]

/-- The eight working variables of SHA-256, 32-bit words. -/
structure ShaState where
  a : Nat
  b : Nat
  c : Nat
  d : Nat
  e : Nat
  f : Nat
  g : Nat
  h : Nat
  deriving DecidableEq, Repr

/-- The initial hash value of SHA-256. -/
def sha256Init : ShaState :=
  ⟨0x6a09e667, 0xbb67ae85, 0x3c6ef372, 0xa54ff53a, 0x510e527f, 0x9b05688c, 0x1f83d9ab, 0x5be0cd19⟩

/-- Addition of 32-bit words. -/
def add32 (x y : Nat) : Nat := (x + y) % 4294967296

/-- Rotation of a 32-bit word to the right by `n` bits. -/
def rotr32 (n x : Nat) : Nat := ((x >>> n) ||| (x <<< (32 - n))) % 4294967296

/-- One round of the SHA-256 compression function with constant `k` and schedule word `w`. -/
def shaRound (s : ShaState) (k w : Nat) : ShaState :=
  let t1 := add32 (add32 (add32 (add32 s.h (rotr32 6 s.e ^^^ rotr32 11 s.e ^^^ rotr32 25 s.e))
    ((s.e &&& s.f) ^^^ ((4294967295 - s.e) &&& s.g))) k) w
  let t2 := add32 (rotr32 2 s.a ^^^ rotr32 13 s.a ^^^ rotr32 22 s.a)
    ((s.a &&& s.b) ^^^ (s.a &&& s.c) ^^^ (s.b &&& s.c))
  ⟨add32 t1 t2, s.a, s.b, s.c, add32 s.d t1, s.e, s.f, s.g⟩

/-- The 64 rounds, over the lists of constants and schedule words. -/
def shaRounds : ShaState → List Nat → List Nat → ShaState
  | s, k :: ks, w :: ws => shaRounds (shaRound s k w) ks ws
  | s, _, _ => s

/-- Extension of the message schedule: `win` holds the last 16 words, oldest first. -/
def shaSchedule : Nat → List Nat → List Nat
  | 0, _ => []
  | n + 1, win =>
    match win with
    | w0 :: w1 :: w2 :: w3 :: w4 :: w5 :: w6 :: w7 :: w8 :: w9 :: w10 :: w11 :: w12 :: w13 ::
        w14 :: w15 :: _ =>
      let s0 := rotr32 7 w1 ^^^ rotr32 18 w1 ^^^ (w1 >>> 3)
      let s1 := rotr32 17 w14 ^^^ rotr32 19 w14 ^^^ (w14 >>> 10)
      let w := add32 (add32 (add32 w0 s0) w9) s1
      w :: shaSchedule n [w1, w2, w3, w4, w5, w6, w7, w8, w9, w10, w11, w12, w13, w14, w15, w]
    | _ => []

/-- Big-endian 32-bit words of a byte string (a trailing partial word is dropped). -/
def beWords : List Byte → List Nat
  | b0 :: b1 :: b2 :: b3 :: rest =>
    (b0.toNat * 16777216 + b1.toNat * 65536 + b2.toNat * 256 + b3.toNat) :: beWords rest
  | _ => []

/-- The compression of one 64-byte block into the state. -/
def shaBlock (s : ShaState) (block : List Byte) : ShaState :=
  let w16 := beWords block
  let t := shaRounds s sha256K (w16 ++ shaSchedule 48 w16)
  ⟨add32 s.a t.a, add32 s.b t.b, add32 s.c t.c, add32 s.d t.d,
    add32 s.e t.e, add32 s.f t.f, add32 s.g t.g, add32 s.h t.h⟩

/-- The compression of all 64-byte blocks of a padded message. -/
def shaBlocks : Nat → ShaState → List Byte → ShaState
  | 0, s, _ => s
  | n + 1, s, msg => shaBlocks n (shaBlock s (msg.take 64)) (msg.drop 64)

/-- The four bytes of a 32-bit word, big-endian. -/
def beBytes (w : Nat) : List Byte :=
  [UInt8.ofNat (w / 16777216), UInt8.ofNat (w / 65536), UInt8.ofNat (w / 256), UInt8.ofNat w]

/-- The padding of SHA-256: a `0x80` byte, zero bytes up to 56 modulo 64, and
the bit length of the message as a 64-bit big-endian number. -/
def shaPad (msg : List Byte) : List Byte :=
  let l := msg.length * 8
  msg ++ [0x80] ++ List.replicate ((119 - msg.length % 64) % 64) 0 ++
    beBytes (l / 4294967296) ++ beBytes l

/-- Modelled from the spec: the hash function `Hash` is declared outside
`helpers.go`; the reference test takes it to be SHA-256 (FIPS 180-4), a 256-bit
digest as in section 6 of the spec. -/
def sha256 (data : List Byte) : Digest :=
  let m := shaPad data
  let s := shaBlocks (m.length / 64) sha256Init m
  ⟨beBytes s.a ++ beBytes s.b ++ beBytes s.c ++ beBytes s.d ++
    beBytes s.e ++ beBytes s.f ++ beBytes s.g ++ beBytes s.h, by simp [beBytes]⟩

/-- The field `PreviousVersion` of the record of `TestHashTreeRoot`. -/
def previousVersion : List Byte := [0x9f, 0x41, 0xbd, 0x5b]

/-- The field `CurrentVersion` of the record of `TestHashTreeRoot`. -/
def currentVersion : List Byte := [0xcb, 0xb0, 0xf1, 0xd7]

/-- The eight bytes of a `uint64`, little-endian. -/
def uint64LE (n : Nat) : List Byte := (List.range 8).map fun i => UInt8.ofNat (n / 256 ^ i)

/-- The field `Epoch` of the record of `TestHashTreeRoot`, serialized. -/
def epochBytes : List Byte := uint64LE 11971467576204192310

/-- The root `TestHashTreeRoot` expects. -/
def goldenRoot : List Byte :=
  [0x3a, 0xd1, 0x26, 0x4c, 0x33, 0xbc, 0x66, 0xb4, 0x3a, 0x49, 0xb1, 0x25, 0x8b, 0x88, 0xf3, 0x4b,
   0x8d, 0xbf, 0xa1, 0x64, 0x9f, 0x17, 0xe6, 0xdf, 0x55, 0x0f, 0x58, 0x96, 0x50, 0xd3, 0x49, 0x92]

/-- Modelled from the spec: the root of one field, `merkleize(pack([field bytes]))`
(the serializer that does this is outside `helpers.go`). -/
def fieldRoot (Hash : List Byte → Digest) (fuel : Nat) (field : List Byte) : Exec Digest :=
  (pack fuel [field]).bind fun packed =>
    (merkleize Hash fuel packed.1).bind fun root => .done root.1

/-- Modelled from the spec: the root of the record of `TestHashTreeRoot`,
`merkleize(pack([r1, r2, r3]))` over the roots of its three fields (section 6:
field roots are themselves packed as 32-byte chunks and merkleized). -/
def forkRoot (Hash : List Byte → Digest) (fuel : Nat) : Exec Digest :=
  (fieldRoot Hash fuel previousVersion).bind fun r1 =>
    (fieldRoot Hash fuel currentVersion).bind fun r2 =>
      (fieldRoot Hash fuel epochBytes).bind fun r3 =>
        (pack fuel [r1.val, r2.val, r3.val]).bind fun packed =>
          (merkleize Hash fuel packed.1).bind fun root => .done root.1

/-- The SHA-256 digest of the first two field roots of the record of
`TestHashTreeRoot`. -/
def codeRoot : List Byte :=
  [0x8a, 0x16, 0x95, 0xd1, 0xb4, 0xa2, 0xfd, 0x59, 0x42, 0xcb, 0x99, 0xe4, 0xe5, 0x4c, 0x20, 0x94,
   0xbf, 0xed, 0x16, 0xac, 0x55, 0xcb, 0xee, 0xf1, 0x3f, 0x0f, 0xfc, 0x7b, 0xc6, 0x9e, 0xb6, 0x23]

/-! ## `merkleize` on slices that share backing arrays -/

/-- A Go slice header of a `[]byte`: the number `buf` of its backing array, the
index `off` of its first byte in that array, its length and its capacity. -/
structure SliceHdr where
  buf : Nat
  off : Nat
  len : Nat
  cap : Nat
  deriving DecidableEq, Repr

/-- The backing arrays, by number. -/
abbrev Heap := List (List Byte)

/-- The bytes of a slice. -/
def readSlice (heap : Heap) (s : SliceHdr) : List Byte :=
  ((heap.getD s.buf []).drop s.off).take s.len

/-- The array `b` with `data` written from index `pos` on. -/
def writeAt (b : List Byte) (pos : Nat) (data : List Byte) : List Byte :=
  b.take pos ++ data ++ b.drop (pos + data.length)

/-- The call `append(s, t...)` on byte slices: when the bytes of `t` fit in the
capacity of `s` they are written into the backing array of `s` behind its
last byte; otherwise a new array with the bytes of `s` and `t` is made (its
capacity plays no part below). The result is the memory after the call and
the header of the returned slice. -/
def appendSlice (heap : Heap) (s t : SliceHdr) : Heap × SliceHdr :=
  if s.len + t.len ≤ s.cap then
    (heap.set s.buf (writeAt (heap.getD s.buf []) (s.off + s.len) (readSlice heap t)),
      ⟨s.buf, s.off, s.len + t.len, s.cap⟩)
  else
    (heap ++ [readSlice heap s ++ readSlice heap t],
      ⟨heap.length, 0, s.len + t.len, s.len + t.len⟩)

/-- The padding loop of `merkleize` (lines 60-62) on slice headers: every
appended chunk is a new array of `BytesPerChunk` zero bytes. -/
def padLoopMem : Nat → Heap → List SliceHdr → Exec (Heap × List SliceHdr)
  | 0, _, _ => .outOfFuel
  | fuel + 1, heap, chunks =>
    if !isPowerTwo chunks.length then
      padLoopMem fuel (heap ++ [makeBytes BytesPerChunk])
        (chunks ++ [⟨heap.length, 0, BytesPerChunk, BytesPerChunk⟩])
    else .done (heap, chunks)

/-- The inner loop of `merkleize` (lines 71-74) on slice headers: the argument
of `Hash` is the slice returned by `append(chunks[i], chunks[i+1]...)`, read
from the memory the call leaves behind. -/
def layerLoopMem (Hash : List Byte → Digest) (chunks : List SliceHdr) (n : Nat) :
    Nat → Nat → List Digest → Heap → Exec (List Digest × Heap)
  | 0, _, _, _ => .outOfFuel
  | fuel + 1, i, layer, heap =>
    if i < n then
      match chunks[i]?, chunks[i + 1]? with
      | some l, some r =>
        layerLoopMem Hash chunks n fuel (i + 2)
          (layer ++ [Hash (readSlice (appendSlice heap l r).1 (appendSlice heap l r).2)])
          (appendSlice heap l r).1
      | _, _ => .panic
    else .done (layer, heap)

/-- The outer loop of `merkleize` (lines 69-76) on slice headers. -/
def reduceLoopMem (Hash : List Byte → Digest) (chunks : List SliceHdr) (innerFuel : Nat) :
    Nat → List Digest → Heap → Exec (List Digest × Heap)
  | 0, _, _ => .outOfFuel
  | fuel + 1, hashLayer, heap =>
    if hashLayer.length > 1 then
      (layerLoopMem Hash chunks hashLayer.length innerFuel 0 [] heap).bind fun res =>
        reduceLoopMem Hash chunks innerFuel fuel res.1 res.2
    else .done (hashLayer, heap)

/-- The function `merkleize` of `helpers.go` (lines 54-78) on slice headers
and the memory they point into. -/
def merkleizeMem (Hash : List Byte → Digest) (fuel : Nat) (heap : Heap)
    (chunks : List SliceHdr) : Exec (Digest × GoError) :=
  if chunks.length = 1 then
    match chunks[0]? with
    | none => .panic
    | some c => .done (copyToRoot (readSlice heap c), none)
  else
    (padLoopMem fuel heap chunks).bind fun padded =>
      let hashLayer := List.replicate padded.2.length zeroDigest
      (reduceLoopMem Hash padded.2 fuel fuel hashLayer padded.1).bind fun res =>
        match res.1[0]? with
        | none => .panic
        | some root => .done (root, none)

/-- The chunks lie within their backing arrays, and the bytes of no chunk lie
in the spare capacity (from `len` up to `cap`) of a chunk of the sequence. -/
def Separated (heap : Heap) (chunks : List SliceHdr) : Prop :=
  (∀ s ∈ chunks, s.buf < heap.length ∧ s.len ≤ s.cap ∧
    s.off + s.cap ≤ (heap.getD s.buf []).length) ∧
  ∀ s ∈ chunks, ∀ t ∈ chunks, s.buf = t.buf →
    t.off + t.len ≤ s.off + s.len ∨ s.off + s.cap ≤ t.off

/-- Two outcomes are of the same kind, with related results when both are. -/
def Exec.Rel {α β : Type} (R : α → β → Prop) : Exec α → Exec β → Prop
  | .done a, .done b => R a b
  | .panic, .panic => True
  | .outOfFuel, .outOfFuel => True
  | _, _ => False

/-- Sample memory: the chunk `01 00..` in an array of its own, the chunks
`03 00..` and `02 00..` one behind the other in one array, and the chunk `last`
in an array of its own. -/
def aliasHeap (last : List Byte) : Heap :=
  [sampleChunk 1, sampleChunk 3 ++ sampleChunk 2, last]

/-- Sample chunk sequence over `aliasHeap last`: `01 00..`, `02 00..`,
`03 00..` and `last`, the third chunk having the second one as its spare
capacity. -/
def aliasChunks : List SliceHdr :=
  [⟨0, 0, 32, 32⟩, ⟨1, 32, 32, 32⟩, ⟨1, 0, 32, 64⟩, ⟨2, 0, 32, 32⟩]

/-- Sample memory with separated chunks: `01 00..` with 32 bytes of spare
capacity behind it, and `02 00..`, `03 00..`, `04 00..` in arrays of their own. -/
def apartHeap : Heap :=
  [sampleChunk 1 ++ sampleChunk 9, sampleChunk 2, sampleChunk 3, sampleChunk 4]

/-! ## Lemmas on the loops -/

theorem flattenItems_eq (items : List (List Byte)) : flattenItems items = items.flatten := by
  have h : ∀ (xs : List (List Byte)) (acc : List Byte),
      xs.foldl (fun orderedItems item => orderedItems ++ item) acc = acc ++ xs.flatten := by
    intro xs
    induction xs with
    | nil => intro acc; simp
    | cons x xs ih => intro acc; simp [List.foldl_cons, ih, List.append_assoc]
  simpa [flattenItems] using h items []

theorem padLastLoop_eq : ∀ (fuel : Nat) (c : List Byte),
    padLastLoop fuel c =
      if 32 - c.length < fuel then .done (c ++ List.replicate (32 - c.length) 0) else .outOfFuel := by
  intro fuel
  induction fuel with
  | zero => intro c; simp [padLastLoop]
  | succ fuel ih =>
    intro c
    unfold padLastLoop
    by_cases hc : c.length < BytesPerChunk
    · rw [if_pos hc, ih]
      have hc32 : c.length < 32 := hc
      have e1 : 32 - (c ++ [0]).length + 1 = 32 - c.length := by
        simp only [List.length_append, List.length_singleton]; omega
      by_cases hf : 32 - c.length < fuel + 1
      · have hf2 : 32 - (c ++ [0]).length < fuel := by omega
        rw [if_pos hf, if_pos hf2, ← e1, List.replicate_succ]
        simp
      · have hf2 : ¬ 32 - (c ++ [0]).length < fuel := by omega
        rw [if_neg hf, if_neg hf2]
    · rw [if_neg hc]
      have hc32 : ¬ c.length < 32 := hc
      have e0 : 32 - c.length = 0 := by omega
      simp [e0]

theorem chunkLoop_eq (a : List Byte) : ∀ (fuel i : Nat) (chunks : List (List Byte)),
    chunkLoop a a.length fuel i chunks =
      if (a.length - i + 31) / 32 < fuel then
        .done (chunks ++ (List.range ((a.length - i + 31) / 32)).map (window a i))
      else .outOfFuel := by
  intro fuel
  induction fuel with
  | zero => intro i chunks; simp [chunkLoop]
  | succ fuel ih =>
    intro i chunks
    unfold chunkLoop
    by_cases hi : i < a.length
    · rw [if_pos hi]
      have hs : slice a i (if i + BytesPerChunk > a.length then a.length else i + BytesPerChunk)
          = .done (window a i 0) := by
        unfold slice BytesPerChunk window
        by_cases hj : i + 32 > a.length
        · rw [if_pos hj, if_pos ⟨by omega, le_refl _⟩]
          congr 1
          rw [List.take_of_length_le (by simp), List.take_of_length_le (by simp; omega)]
          simp
        · rw [if_neg hj, if_pos ⟨by omega, by omega⟩]
          congr 2
          simp
      simp only [hs, Exec.bind]
      rw [ih]
      have hk : (a.length - i + 31) / 32 = (a.length - (i + BytesPerChunk) + 31) / 32 + 1 := by
        unfold BytesPerChunk; omega
      rw [hk]
      by_cases hf : (a.length - (i + BytesPerChunk) + 31) / 32 < fuel
      · rw [if_pos hf, if_pos (by omega)]
        congr 1
        rw [List.range_succ_eq_map, List.map_cons, List.map_map, List.append_assoc]
        rw [List.singleton_append]
        congr 2
        apply List.map_congr_left
        intro t _
        simp only [Function.comp, window, BytesPerChunk]
        congr 2
        omega
      · rw [if_neg hf, if_neg (by omega)]
    · rw [if_neg hi]
      have e0 : (a.length - i + 31) / 32 = 0 := by omega
      simp [e0]

theorem length_window (a : List Byte) (i t : Nat) :
    (window a i t).length = min 32 (a.length - (i + 32 * t)) := by
  simp [window]

theorem length_padTo32 (c : List Byte) (h : c.length ≤ 32) : (padTo32 c).length = 32 := by
  simp only [padTo32, List.length_append, List.length_replicate]; omega

theorem padTo32_of_length (c : List Byte) (h : c.length = 32) : padTo32 c = c := by
  simp [padTo32, h]

theorem length_packedChunks (a : List Byte) :
    (packedChunks a).length = (a.length + 31) / 32 := by
  simp [packedChunks]

theorem length_of_mem_packedChunks (a : List Byte) (c : List Byte)
    (hc : c ∈ packedChunks a) : c.length = 32 := by
  simp only [packedChunks, List.mem_map, List.mem_range] at hc
  obtain ⟨t, _, rfl⟩ := hc
  apply length_padTo32
  rw [length_window]; omega

theorem flatten_padded_windows (a : List Byte) : ∀ j : Nat, 32 * j < a.length + 32 →
    ((List.range j).map fun t => padTo32 (window a 0 t)).flatten
      = a.take (32 * j) ++ List.replicate (32 * j - a.length) 0 := by
  intro j
  induction j with
  | zero => intro _; simp
  | succ j ih =>
    intro hj
    have hlt : 32 * j < a.length := by omega
    rw [List.range_succ, List.map_append, List.flatten_append, ih (by omega)]
    have e0 : 32 * j - a.length = 0 := by omega
    have e1 : 32 - (window a 0 j).length = 32 * (j + 1) - a.length := by
      rw [length_window]; omega
    simp only [e0, List.replicate_zero, List.append_nil, List.map_cons, List.map_nil,
      List.flatten_cons, List.flatten_nil, padTo32, e1]
    rw [← List.append_assoc]
    congr 1
    have e2 : 32 * (j + 1) = 32 * j + 32 := by omega
    rw [e2, List.take_add]
    simp [window]

theorem flatten_packedChunks (a : List Byte) :
    (packedChunks a).flatten
      = a ++ List.replicate (32 * ((a.length + 31) / 32) - a.length) 0 := by
  unfold packedChunks
  rw [flatten_padded_windows a _ (by omega), List.take_of_length_le (by omega)]

theorem set_last_window (a : List Byte) (h : a ≠ []) :
    ((List.range ((a.length + 31) / 32)).map (window a 0)).set ((a.length + 31) / 32 - 1)
        (padTo32 (window a 0 ((a.length + 31) / 32 - 1)))
      = packedChunks a := by
  have hpos : 0 < a.length := List.length_pos.mpr h
  apply List.ext_getElem
  · simp [packedChunks]
  · intro t h1 h2
    simp only [List.length_set, List.length_map, List.length_range] at h1
    simp only [packedChunks, List.getElem_set, List.getElem_map, List.getElem_range]
    split
    · next heq => rw [heq]
    · next hne =>
      rw [padTo32_of_length]
      rw [length_window]; omega

/-- Outcome of `pack` on a non-empty input whose first item is not 32 bytes
long, as a function of the fuel. -/
theorem pack_slow_eq (fuel : Nat) (item0 : List Byte) (rest : List (List Byte))
    (h0 : item0.length ≠ 32) :
    pack fuel (item0 :: rest) =
      if ((item0 :: rest).flatten.length + 31) / 32 < fuel then
        if (item0 :: rest).flatten = [] then .panic
        else if 32 - (window (item0 :: rest).flatten 0
            (((item0 :: rest).flatten.length + 31) / 32 - 1)).length < fuel then
          .done (packedChunks (item0 :: rest).flatten, none)
        else .outOfFuel
      else .outOfFuel := by
  have h0q : ¬ item0.length = BytesPerChunk := h0
  simp only [pack, if_neg h0q, flattenItems_eq]
  generalize (item0 :: rest).flatten = a
  rw [chunkLoop_eq]
  simp only [Nat.sub_zero]
  by_cases hf : (a.length + 31) / 32 < fuel
  · simp only [if_pos hf, Exec.bind, List.nil_append, List.length_map, List.length_range]
    by_cases ha : a = []
    · subst ha; simp
    · have hpos : 0 < a.length := List.length_pos.mpr ha
      have hk : ¬ (a.length + 31) / 32 = 0 := by omega
      rw [if_neg hk, if_neg ha]
      have hget : ((List.range ((a.length + 31) / 32)).map (window a 0))[(a.length + 31) / 32 - 1]?
          = some (window a 0 ((a.length + 31) / 32 - 1)) := by
        rw [List.getElem?_eq_getElem (by simp; omega)]
        simp
      simp only [hget]
      rw [padLastLoop_eq]
      by_cases hp : 32 - (window a 0 ((a.length + 31) / 32 - 1)).length < fuel
      · simp only [if_pos hp, Exec.bind]
        have := set_last_window a ha
        simp only [padTo32] at this
        rw [this]
      · simp only [if_neg hp, Exec.bind]
  · simp only [if_neg hf, Exec.bind]

theorem isPowerTwo_pow (e : Nat) : isPowerTwo (2 ^ e) = true := by
  have hne : (2 : Nat) ^ e ≠ 0 := by positivity
  simp [isPowerTwo, hne, Nat.log_pow, Nat.clog_pow]

theorem eq_pow_of_isPowerTwo (n : Nat) (h : isPowerTwo n = true) :
    n = 2 ^ Nat.clog 2 n := by
  unfold isPowerTwo at h
  by_cases hn : n = 0
  · simp [hn] at h
  · rw [if_neg hn] at h
    have heq : Nat.log 2 n = Nat.clog 2 n := by simpa using h
    have h1 : 2 ^ Nat.log 2 n ≤ n := Nat.pow_log_le_self 2 hn
    have h2 : n ≤ 2 ^ Nat.clog 2 n := Nat.le_pow_clog (by norm_num) n
    rw [heq] at h1
    exact le_antisymm h2 h1

/-- The function `isPowerTwo` is true exactly on the powers of two. -/
theorem isPowerTwo_iff (n : Nat) : isPowerTwo n = true ↔ ∃ e, n = 2 ^ e := by
  constructor
  · intro h; exact ⟨_, eq_pow_of_isPowerTwo n h⟩
  · rintro ⟨e, rfl⟩; exact isPowerTwo_pow e

theorem lt_pow_clog_of_not_isPowerTwo (n : Nat) (h : isPowerTwo n = false) :
    n < 2 ^ Nat.clog 2 n := by
  have h2 : n ≤ 2 ^ Nat.clog 2 n := Nat.le_pow_clog (by norm_num) n
  rcases Nat.lt_or_ge n (2 ^ Nat.clog 2 n) with hlt | hge
  · exact hlt
  · have heq : n = 2 ^ Nat.clog 2 n := le_antisymm h2 hge
    have := isPowerTwo_pow (Nat.clog 2 n)
    rw [← heq, h] at this
    exact absurd this (by simp)

theorem clog_succ_of_not_isPowerTwo (n : Nat) (h : isPowerTwo n = false) :
    Nat.clog 2 (n + 1) = Nat.clog 2 n := by
  have hlt := lt_pow_clog_of_not_isPowerTwo n h
  apply le_antisymm
  · exact (Nat.le_pow_iff_clog_le (by norm_num)).mp hlt
  · exact Nat.clog_mono_right 2 (Nat.le_succ n)

/-- Outcome of the padding loop of `merkleize`, as a function of the fuel. -/
theorem padLoop_eq : ∀ (fuel : Nat) (chunks : List (List Byte)),
    padLoop fuel chunks =
      if padCount chunks.length < fuel then
        .done (chunks ++ List.replicate (padCount chunks.length) (makeBytes BytesPerChunk))
      else .outOfFuel := by
  intro fuel
  induction fuel with
  | zero => intro chunks; simp [padLoop]
  | succ fuel ih =>
    intro chunks
    unfold padLoop
    cases hp : isPowerTwo chunks.length with
    | true =>
      have h0 : padCount chunks.length = 0 := by
        unfold padCount
        rw [← eq_pow_of_isPowerTwo _ hp]; simp
      simp [h0]
    | false =>
      have hlt := lt_pow_clog_of_not_isPowerTwo _ hp
      have hcl := clog_succ_of_not_isPowerTwo _ hp
      have hk : padCount chunks.length = padCount (chunks ++ [makeBytes BytesPerChunk]).length + 1 := by
        simp only [padCount, List.length_append, List.length_singleton, hcl]
        omega
      simp only [Bool.not_false, if_true]
      rw [ih, hk]
      by_cases hf : padCount (chunks ++ [makeBytes BytesPerChunk]).length < fuel
      · rw [if_pos hf, if_pos (by omega), List.replicate_succ, List.append_assoc,
          List.singleton_append]
      · rw [if_neg hf, if_neg (by omega)]

/-- Outcome of the inner loop of `merkleize` on an even bound `2 * h` within
`chunks`, started at the even index `2 * s`. -/
theorem layerLoop_eq (Hash : List Byte → Digest) (chunks : List (List Byte)) (h : Nat)
    (hh : 2 * h ≤ chunks.length) : ∀ (fuel s : Nat) (layer : List Digest),
    layerLoop Hash chunks (2 * h) fuel (2 * s) layer =
      if h - s < fuel then
        .done (layer ++ (List.range (h - s)).map fun t => pairHash Hash chunks (s + t))
      else .outOfFuel := by
  intro fuel
  induction fuel with
  | zero => intro s layer; simp [layerLoop]
  | succ fuel ih =>
    intro s layer
    unfold layerLoop
    by_cases hs : 2 * s < 2 * h
    · rw [if_pos hs]
      have h1 : 2 * s < chunks.length := by omega
      have h2 : 2 * s + 1 < chunks.length := by omega
      rw [List.getElem?_eq_getElem h1, List.getElem?_eq_getElem h2]
      simp only []
      have e2 : 2 * s + 2 = 2 * (s + 1) := by omega
      rw [e2, ih]
      have hk : h - s = (h - (s + 1)) + 1 := by omega
      by_cases hf : h - (s + 1) < fuel
      · rw [if_pos hf, if_pos (by omega)]
        congr 1
        rw [hk, List.range_succ_eq_map, List.map_cons, List.map_map, List.append_assoc,
          List.singleton_append]
        congr 2
        · simp [pairHash, List.getElem?_eq_getElem h1, List.getElem?_eq_getElem h2]
        · apply List.map_congr_left
          intro t _
          simp only [Function.comp]
          congr 1
          omega
      · rw [if_neg hf, if_neg (by omega)]
    · rw [if_neg hs]
      have e0 : h - s = 0 := by omega
      simp [e0]

/-- With enough fuel the outer loop of `merkleize`, entered with a layer of
length `2 ^ (j + 1)`, ends with the one-element layer `[Hash(chunks[0] ++ chunks[1])]`. -/
theorem reduceLoop_pow (Hash : List Byte → Digest) (chunks : List (List Byte)) (innerFuel : Nat) :
    ∀ (j fuel : Nat) (hashLayer : List Digest),
      hashLayer.length = 2 ^ (j + 1) → 2 ^ (j + 1) ≤ chunks.length → 2 ^ j < innerFuel →
      j + 1 < fuel →
      reduceLoop Hash chunks innerFuel fuel hashLayer = .done [pairHash Hash chunks 0] := by
  intro j
  induction j with
  | zero =>
    intro fuel hashLayer hlen hle hin hfuel
    obtain ⟨f, rfl⟩ : ∃ f, fuel = f + 2 := ⟨fuel - 2, by omega⟩
    have hl2 : hashLayer.length = 2 * 1 := by simpa using hlen
    unfold reduceLoop
    rw [if_pos (by omega), hl2]
    have := layerLoop_eq Hash chunks 1 (by simpa using hle) innerFuel 0 []
    simp only [Nat.mul_zero] at this
    rw [this, if_pos (by simpa using hin)]
    simp [Exec.bind, reduceLoop, List.range_succ]
  | succ j ih =>
    intro fuel hashLayer hlen hle hin hfuel
    obtain ⟨f, rfl⟩ : ∃ f, fuel = f + 1 := ⟨fuel - 1, by omega⟩
    have hp : 2 ^ (j + 1 + 1) = 2 * 2 ^ (j + 1) := by rw [pow_succ]; omega
    have hpos : 0 < 2 ^ (j + 1) := by positivity
    unfold reduceLoop
    rw [if_pos (by omega), hlen, hp]
    have := layerLoop_eq Hash chunks (2 ^ (j + 1)) (by omega) innerFuel 0 []
    simp only [Nat.mul_zero] at this
    rw [this, if_pos (by simpa using hin)]
    simp only [Exec.bind, List.nil_append, Nat.sub_zero]
    apply ih
    · simp
    · omega
    · have : 2 ^ (j + 1) = 2 * 2 ^ j := by rw [pow_succ]; omega
      omega
    · omega

theorem padCount_lt (n : Nat) (hn : 2 ≤ n) : padCount n < n := by
  have h := Nat.pow_pred_clog_lt_self (b := 2) (by norm_num) (x := n) (by omega)
  have hpos : 0 < Nat.clog 2 n := Nat.clog_pos (by norm_num) hn
  obtain ⟨e, he⟩ : ∃ e, Nat.clog 2 n = e + 1 := ⟨Nat.clog 2 n - 1, by omega⟩
  unfold padCount
  rw [he] at h ⊢
  simp only [Nat.pred_succ] at h
  rw [pow_succ]
  omega

theorem lt_two_pow_self_succ (e : Nat) : e + 1 < 2 ^ (e + 1) + 1 := by
  have := Nat.lt_two_pow (e + 1)
  omega

/-- On two or more chunks, with fuel at least twice the number of chunks,
`merkleize` returns `Hash(chunks[0] ++ chunks[1])` with a nil error. -/
theorem merkleize_eq_hash_first_pair (Hash : List Byte → Digest) (fuel : Nat)
    (c0 c1 : List Byte) (rest : List (List Byte)) (hfuel : 2 * (rest.length + 2) ≤ fuel) :
    merkleize Hash fuel (c0 :: c1 :: rest) = .done (Hash (c0 ++ c1), none) := by
  have hn : (c0 :: c1 :: rest).length = rest.length + 2 := by simp
  have hne1 : ¬ (c0 :: c1 :: rest).length = 1 := by rw [hn]; omega
  unfold merkleize
  rw [if_neg hne1, padLoop_eq]
  have hk := padCount_lt (rest.length + 2) (by omega)
  rw [hn, if_pos (by omega)]
  simp only [Exec.bind]
  have hpos : 0 < Nat.clog 2 (rest.length + 2) := Nat.clog_pos (by norm_num) (by omega)
  obtain ⟨e, he⟩ : ∃ e, Nat.clog 2 (rest.length + 2) = e + 1 :=
    ⟨Nat.clog 2 (rest.length + 2) - 1, by omega⟩
  have hle : rest.length + 2 ≤ 2 ^ (e + 1) := by
    rw [← he]; exact Nat.le_pow_clog (by norm_num) _
  have hlen : (c0 :: c1 :: rest ++
      List.replicate (padCount (rest.length + 2)) (makeBytes BytesPerChunk)).length
      = 2 ^ (e + 1) := by
    simp only [List.length_append, List.length_cons, List.length_replicate, padCount, he]
    omega
  have hlt : 2 ^ e < rest.length + 2 := by
    have h := Nat.pow_pred_clog_lt_self (b := 2) (by norm_num) (x := rest.length + 2) (by omega)
    rw [he] at h
    simpa using h
  have hpe : 2 ^ (e + 1) = 2 * 2 ^ e := by rw [pow_succ]; omega
  have he2 := lt_two_pow_self_succ e
  rw [reduceLoop_pow Hash _ fuel e fuel _ (by rw [List.length_replicate, hlen]) (by rw [hlen])
    (by omega) (by omega)]
  simp [pairHash]

theorem length_flatten_uniform (items : List (List Byte)) (w : Nat)
    (hlen : ∀ x ∈ items, x.length = w) : items.flatten.length = w * items.length := by
  induction items with
  | nil => simp
  | cons x xs ih =>
    have hx : x.length = w := hlen x (List.mem_cons_self _ _)
    have := ih (fun y hy => hlen y (List.mem_cons_of_mem _ hy))
    simp only [List.flatten_cons, List.length_append, List.length_cons, hx, this]
    rw [Nat.mul_succ]; omega

theorem merkleize_nil_eq (Hash : List Byte → Digest) (fuel : Nat) :
    merkleize Hash (fuel + 2) [] = .done (zeroDigest, none) := by
  have hc : padCount 0 = 1 := by simp [padCount]
  unfold merkleize
  rw [if_neg (by simp), padLoop_eq]
  simp only [List.length_nil, hc]
  rw [if_pos (by omega)]
  simp [Exec.bind, reduceLoop]

theorem specMerkleRoot_four (Hash : List Byte → Digest) (a b c d : List Byte) :
    specMerkleRoot Hash [a, b, c, d]
      = some (Hash ((Hash (a ++ b)).val ++ (Hash (c ++ d)).val)).val := by
  have hc : Nat.clog 2 4 = 2 := by simp [Nat.clog]
  simp [specMerkleRoot, specPad, hc, specReduce, specNextLayer]

/-! ## The claims -/

/-- C1: on four chunks `a b c d` `merkleize` returns `Hash(a ++ b)` for every
hash function, while the root of the binary hash tree over the chunks is
`Hash(Hash(a ++ b) ++ Hash(c ++ d))`; with `sampleHash` and the chunks
`01 00..`, `02 00..`, `03 00..`, `04 00..` the two differ. -/
theorem merkleize_four_chunks_is_not_tree_root :
    (∀ (Hash : List Byte → Digest) (a b c d : List Byte),
      merkleize Hash 8 [a, b, c, d] = .done (Hash (a ++ b), none) ∧
      specMerkleRoot Hash [a, b, c, d]
        = some (Hash ((Hash (a ++ b)).val ++ (Hash (c ++ d)).val)).val) ∧
      (sampleHash (sampleChunk 1 ++ sampleChunk 2)).val
        ≠ (sampleHash ((sampleHash (sampleChunk 1 ++ sampleChunk 2)).val
            ++ (sampleHash (sampleChunk 3 ++ sampleChunk 4)).val)).val := by
  refine ⟨fun Hash a b c d => ⟨merkleize_eq_hash_first_pair Hash 8 a b [c, d] (by simp),
    specMerkleRoot_four Hash a b c d⟩, by decide⟩

/-- C2: on a single chunk of exactly 32 bytes `merkleize` returns that chunk as
the root with a nil error, for every hash function and every fuel. -/
theorem merkleize_single (Hash : List Byte → Digest) (fuel : Nat) (c : List Byte)
    (h : c.length = 32) : merkleize Hash fuel [c] = .done (⟨c, h⟩, none) := by
  simp only [merkleize, List.length_singleton, if_true, List.getElem?_cons_zero]
  congr 2
  apply Subtype.ext
  simp [copyToRoot, h, List.take_of_length_le]

/-- Witness for C2 at the chunk `01 00 .. 00`. -/
theorem merkleize_single_witness :
    (sampleChunk 1).length = 32 ∧
      merkleize sampleHash 0 [sampleChunk 1] = .done (⟨sampleChunk 1, by decide⟩, none) :=
  ⟨by decide, merkleize_single sampleHash 0 (sampleChunk 1) (by decide)⟩

/-- C3 fails as stated: on a 32-byte item followed by a 1-byte item `pack`
returns the two items themselves, the second of which is 1 byte long. -/
theorem pack_mixed_items_short_chunk :
    pack 0 [sampleChunk 1, [7]] = .done ([sampleChunk 1, [7]], none) ∧
      ¬ ∀ c ∈ [sampleChunk 1, [7]], c.length = 32 := by
  decide

/-- C3, amended: for a non-empty sequence of items in which every item has
length 32 whenever the first one has, every chunk of a sequence returned by
`pack` has length exactly 32; and `pack` does return, with a nil error, when
the items hold at least one byte. -/
theorem pack_chunk_lengths (items : List (List Byte)) (hne : items ≠ [])
    (hfirst : (items.head hne).length = 32 → ∀ x ∈ items, x.length = 32) :
    (∀ fuel chunks err, pack fuel items = .done (chunks, err) → ∀ c ∈ chunks, c.length = 32) ∧
      (items.flatten ≠ [] → ∃ chunks, ∀ fuel, items.flatten.length / 32 + 33 ≤ fuel →
        pack fuel items = .done (chunks, none)) := by
  cases items with
  | nil => exact absurd rfl hne
  | cons item0 rest =>
    simp only [List.head_cons] at hfirst
    by_cases h0 : item0.length = 32
    · have hp : ∀ fuel, pack fuel (item0 :: rest) = .done (item0 :: rest, none) := by
        intro fuel
        have h0q : item0.length = BytesPerChunk := h0
        simp [pack, h0q]
      refine ⟨?_, fun _ => ⟨item0 :: rest, fun fuel _ => hp fuel⟩⟩
      intro fuel chunks err hret c hc
      rw [hp fuel] at hret
      injection hret with hret
      injection hret with hchunks _
      subst hchunks
      exact hfirst h0 c hc
    · constructor
      · intro fuel chunks err hret c hc
        rw [pack_slow_eq fuel item0 rest h0] at hret
        split at hret
        · split at hret
          · exact absurd hret (by simp)
          · split at hret
            · injection hret with hret
              injection hret with hchunks _
              subst hchunks
              exact length_of_mem_packedChunks _ c hc
            · exact absurd hret (by simp)
        · exact absurd hret (by simp)
      · intro hdata
        refine ⟨packedChunks (item0 :: rest).flatten, fun fuel hfuel => ?_⟩
        rw [pack_slow_eq fuel item0 rest h0, if_pos (by omega), if_neg hdata, if_pos (by omega)]

/-- Witness for C3 at the single 3-byte item `01 02 03`. -/
theorem pack_chunk_lengths_witness :
    ([[1, 2, 3]] : List (List Byte)) ≠ [] ∧
      ((([[1, 2, 3]] : List (List Byte)).head (by decide)).length = 32 →
        ∀ x ∈ ([[1, 2, 3]] : List (List Byte)), x.length = 32) ∧
      ((∀ fuel chunks err, pack fuel [[1, 2, 3]] = .done (chunks, err) →
          ∀ c ∈ chunks, c.length = 32) ∧
        (([[1, 2, 3]] : List (List Byte)).flatten ≠ [] → ∃ chunks, ∀ fuel,
          ([[1, 2, 3]] : List (List Byte)).flatten.length / 32 + 33 ≤ fuel →
            pack fuel [[1, 2, 3]] = .done (chunks, none))) :=
  ⟨by decide, by decide, pack_chunk_lengths [[1, 2, 3]] (by decide) (by decide)⟩

/-- C4: for a non-empty sequence of items that all have the same length
`w ≥ 1`, with `T = w * len(items)` bytes in total, `pack` returns (for every
fuel from `T / 32 + 33` on) exactly `ceil(T / 32)` chunks of 32 bytes each,
whose concatenation is the concatenation of the items followed by
`32 * ceil(T / 32) - T` zero bytes. -/
theorem pack_uniform_items (items : List (List Byte)) (w : Nat) (hne : items ≠ [])
    (hw : 1 ≤ w) (hlen : ∀ x ∈ items, x.length = w) :
    ∃ chunks : List (List Byte),
      (∀ fuel, w * items.length / 32 + 33 ≤ fuel → pack fuel items = .done (chunks, none)) ∧
      chunks.length = (w * items.length + 31) / 32 ∧
      (∀ c ∈ chunks, c.length = 32) ∧
      chunks.flatten = items.flatten ++
        List.replicate (32 * ((w * items.length + 31) / 32) - w * items.length) 0 := by
  have hT := length_flatten_uniform items w hlen
  cases items with
  | nil => exact absurd rfl hne
  | cons item0 rest =>
    have hw0 : item0.length = w := hlen item0 (List.mem_cons_self _ _)
    by_cases h0 : item0.length = 32
    · have hw32 : w = 32 := by omega
      subst hw32
      refine ⟨item0 :: rest, fun fuel _ => ?_, ?_, hlen, ?_⟩
      · have h0q : item0.length = BytesPerChunk := h0
        simp [pack, h0q]
      · omega
      · have e0 : 32 * ((32 * (item0 :: rest).length + 31) / 32) - 32 * (item0 :: rest).length
            = 0 := by omega
        rw [e0]; simp
    · have hdata : (item0 :: rest).flatten ≠ [] := by
        intro hnil
        have : (item0 :: rest).flatten.length = 0 := by rw [hnil]; rfl
        rw [hT] at this
        have hpos : 0 < w * (item0 :: rest).length :=
          Nat.mul_pos (by omega) (by simp)
        omega
      refine ⟨packedChunks (item0 :: rest).flatten, fun fuel hfuel => ?_, ?_,
        length_of_mem_packedChunks _, ?_⟩
      · rw [← hT] at hfuel
        rw [pack_slow_eq fuel item0 rest h0, if_pos (by omega), if_neg hdata, if_pos (by omega)]
      · rw [length_packedChunks, hT]
      · rw [flatten_packedChunks, hT]

/-- Witness for C4 at the two 4-byte items `01 02 03 04` and `05 06 07 08`. -/
theorem pack_uniform_items_witness :
    ([[1, 2, 3, 4], [5, 6, 7, 8]] : List (List Byte)) ≠ [] ∧ 1 ≤ 4 ∧
      (∀ x ∈ ([[1, 2, 3, 4], [5, 6, 7, 8]] : List (List Byte)), x.length = 4) ∧
      ∃ chunks : List (List Byte),
        (∀ fuel, 4 * ([[1, 2, 3, 4], [5, 6, 7, 8]] : List (List Byte)).length / 32 + 33 ≤ fuel →
          pack fuel [[1, 2, 3, 4], [5, 6, 7, 8]] = .done (chunks, none)) ∧
        chunks.length = (4 * ([[1, 2, 3, 4], [5, 6, 7, 8]] : List (List Byte)).length + 31) / 32 ∧
        (∀ c ∈ chunks, c.length = 32) ∧
        chunks.flatten = ([[1, 2, 3, 4], [5, 6, 7, 8]] : List (List Byte)).flatten ++
          List.replicate
            (32 * ((4 * ([[1, 2, 3, 4], [5, 6, 7, 8]] : List (List Byte)).length + 31) / 32)
              - 4 * ([[1, 2, 3, 4], [5, 6, 7, 8]] : List (List Byte)).length) 0 :=
  ⟨by decide, by decide, by decide,
    pack_uniform_items [[1, 2, 3, 4], [5, 6, 7, 8]] 4 (by decide) (by decide) (by decide)⟩

/-- C5: `pack` of the empty sequence returns exactly one chunk of 32 zero bytes
with a nil error, whatever the fuel. -/
theorem pack_empty_input (fuel : Nat) :
    pack fuel [] = .done ([List.replicate 32 (0 : Byte)], none) := by
  rfl

/-- C6: on a non-empty sequence whose items all have length 32, `pack` returns
the input sequence itself with a nil error. -/
theorem pack_full_items (fuel : Nat) (items : List (List Byte)) (hne : items ≠ [])
    (hlen : ∀ x ∈ items, x.length = 32) : pack fuel items = .done (items, none) := by
  cases items with
  | nil => exact absurd rfl hne
  | cons item0 rest =>
    have h0 : item0.length = BytesPerChunk := hlen item0 (List.mem_cons_self _ _)
    simp [pack, h0]

/-- Witness for C6 at two 32-byte items. -/
theorem pack_full_items_witness :
    [sampleChunk 1, sampleChunk 2] ≠ [] ∧
      (∀ x ∈ [sampleChunk 1, sampleChunk 2], x.length = 32) ∧
      pack 0 [sampleChunk 1, sampleChunk 2] = .done ([sampleChunk 1, sampleChunk 2], none) :=
  ⟨by decide, by decide,
    pack_full_items 0 [sampleChunk 1, sampleChunk 2] (by decide) (by decide)⟩

/-- C7: the padding loop of `merkleize`, run on any chunk sequence of length
`n`, terminates (for every fuel above the number `k` of appended chunks) with
the original chunks followed by `k` all-zero 32-byte chunks, where `n + k` is
the smallest power of two that is at least `n`; `k = 0` when `n` is a power
of two. -/
theorem padLoop_pads_to_next_power_of_two (chunks : List (List Byte)) :
    ∃ k e : Nat,
      (∀ fuel, k < fuel →
        padLoop fuel chunks = .done (chunks ++ List.replicate k (List.replicate 32 0))) ∧
      chunks.length + k = 2 ^ e ∧
      (∀ e', chunks.length ≤ 2 ^ e' → 2 ^ e ≤ 2 ^ e') ∧
      ((∃ e', chunks.length = 2 ^ e') → k = 0) := by
  have hle : chunks.length ≤ 2 ^ Nat.clog 2 chunks.length := Nat.le_pow_clog (by norm_num) _
  have hmin : ∀ e', chunks.length ≤ 2 ^ e' → 2 ^ Nat.clog 2 chunks.length ≤ 2 ^ e' := by
    intro e' he'
    exact Nat.pow_le_pow_right (by norm_num) ((Nat.le_pow_iff_clog_le (by norm_num)).mp he')
  refine ⟨padCount chunks.length, Nat.clog 2 chunks.length, fun fuel hfuel => ?_, ?_, hmin, ?_⟩
  · rw [padLoop_eq, if_pos hfuel]; rfl
  · unfold padCount; omega
  · rintro ⟨e', he'⟩
    have := hmin e' (le_of_eq he')
    unfold padCount; omega

/-- C8: for every hash function and all chunks `a b c d`, `merkleize` returns
`Hash(a ++ b)` both on `[a, b, c, d]` and on `[a, b, d, c]`: swapping the
sibling pair `(c, d)` leaves the root unchanged. -/
theorem merkleize_swap_second_pair (Hash : List Byte → Digest) (fuel : Nat)
    (a b c d : List Byte) :
    merkleize Hash (fuel + 8) [a, b, c, d] = .done (Hash (a ++ b), none) ∧
      merkleize Hash (fuel + 8) [a, b, d, c] = .done (Hash (a ++ b), none) :=
  ⟨merkleize_eq_hash_first_pair Hash (fuel + 8) a b [c, d] (by simp),
    merkleize_eq_hash_first_pair Hash (fuel + 8) a b [d, c] (by simp)⟩

/-- C9 fails as stated: on the empty chunk sequence `merkleize` does not
return a non-nil error, it returns the zero root with a nil error. -/
theorem merkleize_empty_is_not_a_failure :
    merkleize sampleHash 2 [] = .done (zeroDigest, none) ∧
      ¬ ∃ root msg, merkleize sampleHash 2 [] = .done (root, some msg) := by
  have h := merkleize_nil_eq sampleHash 0
  refine ⟨h, ?_⟩
  rintro ⟨root, msg, hfail⟩
  rw [show (0 + 2 = 2) from rfl] at h
  rw [h] at hfail
  injection hfail with hfail
  injection hfail with _ herr
  exact absurd herr (by simp)

/-- C9, amended: on the empty chunk sequence `merkleize` returns, for every
hash function and every fuel from 2 on, the all-zero 32-byte root with a nil
error. -/
theorem merkleize_empty_returns_zero_root (Hash : List Byte → Digest) (fuel : Nat) :
    merkleize Hash (fuel + 2) [] = .done (zeroDigest, none) ∧
      zeroDigest.val = List.replicate 32 0 :=
  ⟨merkleize_nil_eq Hash fuel, rfl⟩

/-- C10: on the one-item input whose item is empty, `pack` panics (the index
`len(chunks)-1` is out of range) for every fuel from 1 on. -/
theorem pack_empty_item_panics (fuel : Nat) : pack (fuel + 1) [[]] = .panic := by
  rw [pack_slow_eq (fuel + 1) [] [] (by simp)]
  simp

/-! ## Further lemmas -/

/-- A sequence returned by `pack` starts with a chunk of 32 bytes, and the
returned error is nil. -/
theorem pack_done_head (fuel : Nat) (items chunks : List (List Byte)) (err : GoError)
    (h : pack fuel items = .done (chunks, err)) :
    err = none ∧ ∃ c cs, chunks = c :: cs ∧ c.length = 32 := by
  cases items with
  | nil =>
    have hp : pack fuel [] = .done ([makeBytes BytesPerChunk], none) := rfl
    rw [hp] at h
    injection h with h
    injection h with hc he
    exact ⟨he.symm, _, _, hc.symm, by simp [makeBytes, BytesPerChunk]⟩
  | cons item0 rest =>
    by_cases h0 : item0.length = 32
    · have h0q : item0.length = BytesPerChunk := h0
      have hp : pack fuel (item0 :: rest) = .done (item0 :: rest, none) := by simp [pack, h0q]
      rw [hp] at h
      injection h with h
      injection h with hc he
      exact ⟨he.symm, _, _, hc.symm, h0⟩
    · rw [pack_slow_eq fuel item0 rest h0] at h
      split at h
      · split at h
        · exact absurd h (by simp)
        · next hdata =>
          split at h
          · injection h with h
            injection h with hc he
            refine ⟨he.symm, ?_⟩
            have hpos : 0 < (item0 :: rest).flatten.length := List.length_pos.mpr hdata
            have hlen := length_packedChunks (item0 :: rest).flatten
            rw [hc] at hlen
            cases chunks with
            | nil => simp only [List.length_nil] at hlen; omega
            | cons c cs =>
              refine ⟨c, cs, rfl, ?_⟩
              apply length_of_mem_packedChunks (item0 :: rest).flatten
              rw [hc]; exact List.mem_cons_self _ _
          · exact absurd h (by simp)
      · exact absurd h (by simp)

/-- On a sequence whose first chunk has 32 bytes `pack` returns the sequence. -/
theorem pack_of_head_full (fuel : Nat) (c : List Byte) (cs : List (List Byte))
    (hc : c.length = 32) : pack fuel (c :: cs) = .done (c :: cs, none) := by
  have hq : c.length = BytesPerChunk := hc
  simp [pack, hq]

/-- The recorded loop never returns an empty record. -/
theorem reduceLayers_ne_nil (Hash : List Byte → Digest) (chunks : List (List Byte))
    (innerFuel : Nat) : ∀ (fuel : Nat) (hashLayer : List Digest) (layers : List (List Digest)),
    reduceLayers Hash chunks innerFuel fuel hashLayer = .done layers → layers ≠ [] := by
  intro fuel
  induction fuel with
  | zero => intro hashLayer layers h; simp [reduceLayers] at h
  | succ fuel ih =>
    intro hashLayer layers h
    unfold reduceLayers at h
    split at h
    · cases hl : layerLoop Hash chunks hashLayer.length innerFuel 0 [] with
      | done layer =>
        rw [hl] at h
        simp only [Exec.bind] at h
        cases hr : reduceLayers Hash chunks innerFuel fuel layer with
        | done ls =>
          rw [hr] at h
          injection h with h
          rw [← h]; simp
        | panic => rw [hr] at h; simp at h
        | outOfFuel => rw [hr] at h; simp at h
      | panic => rw [hl] at h; simp [Exec.bind] at h
      | outOfFuel => rw [hl] at h; simp [Exec.bind] at h
    · injection h with h
      rw [← h]; simp

/-- The recorded loop is the loop of `merkleize`: for every fuel, the last
recorded layer is the layer `reduceLoop` ends with, and the two fail alike. -/
theorem reduceLayers_last (Hash : List Byte → Digest) (chunks : List (List Byte))
    (innerFuel : Nat) : ∀ (fuel : Nat) (hashLayer : List Digest),
    (reduceLayers Hash chunks innerFuel fuel hashLayer).bind (fun layers => .done layers.getLast?)
      = (reduceLoop Hash chunks innerFuel fuel hashLayer).bind (fun layer => .done (some layer)) := by
  intro fuel
  induction fuel with
  | zero => intro hashLayer; rfl
  | succ fuel ih =>
    intro hashLayer
    unfold reduceLayers reduceLoop
    by_cases hgt : hashLayer.length > 1
    · rw [if_pos hgt, if_pos hgt]
      cases hl : layerLoop Hash chunks hashLayer.length innerFuel 0 [] with
      | done layer =>
        simp only [Exec.bind]
        have hih := ih layer
        cases hr : reduceLayers Hash chunks innerFuel fuel layer with
        | done ls =>
          have hne := reduceLayers_ne_nil Hash chunks innerFuel fuel layer ls hr
          rw [hr] at hih
          simp only [Exec.bind] at hih ⊢
          obtain ⟨b, t, rfl⟩ := List.exists_cons_of_ne_nil hne
          rw [List.getLast?_cons_cons]
          exact hih
        | panic => rw [hr] at hih; simpa [Exec.bind] using hih
        | outOfFuel => rw [hr] at hih; simpa [Exec.bind] using hih
      | panic => rfl
      | outOfFuel => rfl
    · rw [if_neg hgt, if_neg hgt]
      rfl

/-- With enough fuel the recorded loop, entered with a layer of length `2 ^ j`
within `chunks`, records layers of power-of-two lengths, each half as long as
the one before, down to a layer of one element, which `reduceLoop` returns. -/
theorem reduceLayers_pow (Hash : List Byte → Digest) (chunks : List (List Byte))
    (innerFuel : Nat) : ∀ (j fuel : Nat) (hashLayer : List Digest),
      hashLayer.length = 2 ^ j → 2 ^ j ≤ chunks.length → 2 ^ j ≤ innerFuel → j < fuel →
      ∃ layers root,
        reduceLayers Hash chunks innerFuel fuel hashLayer = .done layers ∧
        layers.head? = some hashLayer ∧
        (∀ l ∈ layers, ∃ i, l.length = 2 ^ i) ∧
        List.Chain' (fun l l' : List Digest => l.length = 2 * l'.length) layers ∧
        layers.getLast? = some [root] ∧
        reduceLoop Hash chunks innerFuel fuel hashLayer = .done [root] := by
  intro j
  induction j with
  | zero =>
    intro fuel hashLayer hlen _ _ hfuel
    obtain ⟨f, rfl⟩ : ∃ f, fuel = f + 1 := ⟨fuel - 1, by omega⟩
    have h1 : hashLayer.length = 1 := by simpa using hlen
    obtain ⟨root, rfl⟩ := List.length_eq_one.mp h1
    refine ⟨[[root]], root, by simp [reduceLayers], rfl, ?_, by simp, rfl, by simp [reduceLoop]⟩
    intro l hl
    exact ⟨0, by simp at hl; simp [hl]⟩
  | succ j ih =>
    intro fuel hashLayer hlen hle hin hfuel
    obtain ⟨f, rfl⟩ : ∃ f, fuel = f + 1 := ⟨fuel - 1, by omega⟩
    have hp : 2 ^ (j + 1) = 2 * 2 ^ j := by rw [pow_succ]; omega
    have hpos : 0 < 2 ^ j := by positivity
    have hloop := layerLoop_eq Hash chunks (2 ^ j) (by omega) innerFuel 0 []
    simp only [Nat.mul_zero, Nat.sub_zero, List.nil_append, Nat.zero_add] at hloop
    rw [if_pos (by omega)] at hloop
    obtain ⟨layers, root, hrec, hhead, hpow, hchain, hlast, hred⟩ :=
      ih f ((List.range (2 ^ j)).map fun t => pairHash Hash chunks t) (by simp) (by omega)
        (by omega) (by omega)
    have hne : layers ≠ [] := by
      intro hnil; rw [hnil] at hhead; simp at hhead
    obtain ⟨l0, t, rfl⟩ := List.exists_cons_of_ne_nil hne
    have hl0 : l0 = (List.range (2 ^ j)).map fun t => pairHash Hash chunks t := by
      simpa using hhead
    refine ⟨hashLayer :: l0 :: t, root, ?_, rfl, ?_, ?_, ?_, ?_⟩
    · unfold reduceLayers
      rw [if_pos (by omega), hlen, hp, hloop]
      simp only [Exec.bind, hrec]
    · intro l hl
      rcases List.mem_cons.mp hl with rfl | hl
      · exact ⟨j + 1, hlen⟩
      · exact hpow l hl
    · refine List.Chain'.cons ?_ hchain
      rw [hlen, hl0]; simp [hp]
    · rw [List.getLast?_cons_cons]; exact hlast
    · unfold reduceLoop
      rw [if_pos (by omega), hlen, hp, hloop]
      simp only [Exec.bind, hred]

/-- A hit of `cacheLookup` is an entry of the cache. -/
theorem mem_of_cacheLookup {K : Type} [DecidableEq K] : ∀ (cache : RootCache K) (key : K)
    (root : Digest), cacheLookup cache key = some root → (key, root) ∈ cache := by
  intro cache
  induction cache with
  | nil => intro key root h; simp [cacheLookup] at h
  | cons e rest ih =>
    intro key root h
    obtain ⟨k, r⟩ := e
    unfold cacheLookup at h
    by_cases hk : k = key
    · rw [if_pos hk] at h
      injection h with h
      subst hk h
      exact List.mem_cons_self _ _
    · rw [if_neg hk] at h
      exact List.mem_cons_of_mem _ (ih key root h)

/-- Whatever the switch is at each call, calls on values of `all` return the
computed roots when the fingerprint tells apart values of `all` with different
roots and every entry of the cache was computed from a value of `all`. -/
theorem rootsOfCalls_eq_map {V K : Type} [DecidableEq K] (fingerprint : V → K)
    (computeRoot : V → Digest) (all : List V)
    (hsound : ∀ v ∈ all, ∀ w ∈ all, fingerprint v = fingerprint w → computeRoot v = computeRoot w) :
    ∀ (calls : List (Bool × V)) (cache : RootCache K), (∀ c ∈ calls, c.2 ∈ all) →
      (∀ e ∈ cache, ∃ u ∈ all, fingerprint u = e.1 ∧ computeRoot u = e.2) →
      rootsOfCalls fingerprint computeRoot cache calls = calls.map fun c => computeRoot c.2 := by
  intro calls
  induction calls with
  | nil => intro cache _ _; rfl
  | cons c cs ih =>
    intro cache hall hinv
    obtain ⟨useCache, v⟩ := c
    have hv : v ∈ all := hall (useCache, v) (List.mem_cons_self _ _)
    have hcs : ∀ d ∈ cs, d.2 ∈ all := fun d hd => hall d (List.mem_cons_of_mem _ hd)
    cases useCache with
    | false =>
      simp only [rootsOfCalls, hashTreeRootCached, List.map_cons, Bool.false_eq_true, if_false]
      rw [ih _ hcs hinv]
    | true =>
      simp only [rootsOfCalls, hashTreeRootCached, if_true, List.map_cons]
      cases hl : cacheLookup cache (fingerprint v) with
      | none =>
        simp only []
        rw [ih _ hcs]
        intro e he
        rcases List.mem_cons.mp he with rfl | he
        · exact ⟨v, hv, rfl, rfl⟩
        · exact hinv e he
      | some root =>
        simp only []
        obtain ⟨u, hu, hfp, hroot⟩ := hinv _ (mem_of_cacheLookup cache _ root hl)
        have : root = computeRoot v := by
          have hroot2 : computeRoot u = root := hroot
          rw [← hroot2]; exact hsound u hu v hv hfp
        rw [this, ih _ hcs hinv]

/-- A number `n ≠ 0` below `2 ^ fuel` lies between `2 ^ (b - 1)` and `2 ^ b`
for its number `b` of binary digits. -/
theorem bitLengthAux_bounds : ∀ (fuel n : Nat), n ≠ 0 → n < 2 ^ fuel →
    1 ≤ bitLengthAux fuel n ∧ 2 ^ (bitLengthAux fuel n - 1) ≤ n ∧
      n < 2 ^ bitLengthAux fuel n := by
  intro fuel
  induction fuel with
  | zero => intro n hn hlt; simp at hlt; omega
  | succ fuel ih =>
    intro n hn hlt
    unfold bitLengthAux
    rw [if_neg hn]
    by_cases h2 : n / 2 = 0
    · have h1 : n = 1 := by omega
      subst h1
      have hb : bitLengthAux fuel (1 / 2) = 0 := by
        cases fuel <;> simp [bitLengthAux]
      rw [hb]; simp
    · have hlt2 : n / 2 < 2 ^ fuel := by
        rw [pow_succ] at hlt; omega
      obtain ⟨hb1, hlo, hhi⟩ := ih (n / 2) h2 hlt2
      obtain ⟨b, hb⟩ : ∃ b, bitLengthAux fuel (n / 2) = b + 1 :=
        ⟨bitLengthAux fuel (n / 2) - 1, by omega⟩
      rw [hb] at hlo hhi ⊢
      simp only [Nat.add_sub_cancel] at hlo ⊢
      rw [pow_succ] at hhi ⊢
      refine ⟨by omega, by omega, ?_⟩
      rw [pow_succ]; omega

/-- Below `2 ^ 53` the conversion `float64(num)` is exact. -/
theorem toFloat64_of_lt (num : Nat) (h : num < 2 ^ 53) : toFloat64 num = num := by
  unfold toFloat64
  by_cases h0 : num = 0
  · subst h0; rfl
  · have hlt : num < 2 ^ 64 := lt_trans h (by norm_num)
    obtain ⟨_, hlo, _⟩ := bitLengthAux_bounds 64 num h0 hlt
    have hb : bitLength num ≤ 53 := by
      by_contra hgt
      have hle : 2 ^ 53 ≤ 2 ^ (bitLengthAux 64 num - 1) :=
        Nat.pow_le_pow_right (by norm_num) (by unfold bitLength at hgt; omega)
      omega
    rw [if_pos hb]

/-- Below `2 ^ 53`, and when `math.Log2` of a number that is not a power of two
is never rounded to a whole number, `isPowerTwoFloat64` is `isPowerTwo`. -/
theorem isPowerTwoFloat64_eq_isPowerTwo (logIsWhole : Nat → Bool) (num : Nat)
    (h : num < 2 ^ 53) (hlog : ∀ x, (¬ ∃ k, x = 2 ^ k) → logIsWhole x = false) :
    isPowerTwoFloat64 logIsWhole num = isPowerTwo num := by
  unfold isPowerTwoFloat64
  by_cases h0 : num = 0
  · subst h0; simp [isPowerTwo]
  · rw [if_neg h0, toFloat64_of_lt num h]
    have hlt : num < 2 ^ 64 := lt_trans h (by norm_num)
    obtain ⟨_, hlo, hhi⟩ := bitLengthAux_bounds 64 num h0 hlt
    by_cases hp : num = 2 ^ (bitLength num - 1)
    · rw [if_pos hp]
      exact ((isPowerTwo_iff num).mpr ⟨_, hp⟩).symm
    · rw [if_neg hp]
      have hnot : ¬ ∃ k, num = 2 ^ k := by
        rintro ⟨k, hk⟩
        apply hp
        have hk1 : bitLengthAux 64 num - 1 ≤ k := by
          by_contra hgt
          have : 2 ^ (k + 1) ≤ 2 ^ (bitLengthAux 64 num - 1) :=
            Nat.pow_le_pow_right (by norm_num) (by omega)
          rw [pow_succ] at this
          omega
        have hk2 : k < bitLengthAux 64 num := by
          by_contra hge
          have : 2 ^ bitLengthAux 64 num ≤ 2 ^ k :=
            Nat.pow_le_pow_right (by norm_num) (by omega)
          omega
        have hke : k = bitLength num - 1 := by unfold bitLength; omega
        rw [← hke]; exact hk
      rw [hlog num hnot]
      cases hi : isPowerTwo num with
      | false => rfl
      | true => exact absurd ((isPowerTwo_iff num).mp hi) hnot


/-- The root of a field of fewer than 32 bytes (and at least one) is the field
right-padded with zeros, for every hash function and every fuel from 33 on. -/
theorem fieldRoot_short (Hash : List Byte → Digest) (fuel : Nat) (field : List Byte)
    (h1 : 0 < field.length) (h2 : field.length < 32) (hfuel : 33 ≤ fuel) :
    fieldRoot Hash fuel field = .done ⟨padTo32 field, length_padTo32 field (le_of_lt h2)⟩ := by
  have hne : field ≠ [] := List.length_pos.mp h1
  have hflat : ([field] : List (List Byte)).flatten = field := by simp
  have hp : pack fuel [field] = .done ([padTo32 field], none) := by
    rw [pack_slow_eq fuel field [] (by omega), hflat, if_pos (by omega), if_neg hne,
      if_pos (by omega)]
    have hk : (field.length + 31) / 32 = 1 := by omega
    have hw : window field 0 0 = field := by
      simp only [window, Nat.mul_zero, Nat.add_zero, List.drop_zero]
      exact List.take_of_length_le (by omega)
    simp [packedChunks, hk, List.range_succ, hw]
  have hlen : (padTo32 field).length = 32 := length_padTo32 field (by omega)
  unfold fieldRoot
  rw [hp]
  simp only [Exec.bind]
  rw [merkleize_single Hash fuel (padTo32 field) hlen]

/-- With fuel 40, the record root of the reference test is, for every hash
function, the hash of the first two field roots. -/
theorem forkRoot_eq (Hash : List Byte → Digest) :
    forkRoot Hash 40 = .done (Hash (padTo32 previousVersion ++ padTo32 currentVersion)) := by
  unfold forkRoot
  rw [fieldRoot_short Hash 40 previousVersion (by decide) (by decide) (by decide),
    fieldRoot_short Hash 40 currentVersion (by decide) (by decide) (by decide),
    fieldRoot_short Hash 40 epochBytes (by decide) (by decide) (by decide)]
  simp only [Exec.bind]
  rw [pack_of_head_full 40 (padTo32 previousVersion) _ (by decide)]
  simp only []
  rw [merkleize_eq_hash_first_pair Hash 40 _ _ _ (by decide)]

/-- The reference root of three chunks: `Hash(Hash(a ++ b) ++ Hash(c ++ zero))`. -/
theorem specMerkleRoot_three (Hash : List Byte → Digest) (a b c : List Byte) :
    specMerkleRoot Hash [a, b, c]
      = some (Hash ((Hash (a ++ b)).val ++ (Hash (c ++ List.replicate 32 0)).val)).val := by
  have hc : Nat.clog 2 3 = 2 := by simp [Nat.clog]
  simp [specMerkleRoot, specPad, hc, specReduce, specNextLayer]

set_option maxRecDepth 100000 in
/-- The SHA-256 digest of the first two field roots of the reference record. -/
theorem sha256_first_field_roots :
    (sha256 (padTo32 previousVersion ++ padTo32 currentVersion)).val = codeRoot := by
  decide!

set_option maxRecDepth 100000 in
/-- The root of the binary SHA-256 tree over the three field roots of the
reference record, the third pair being completed with a zero chunk. -/
theorem sha256_tree_of_field_roots :
    (sha256 ((sha256 (padTo32 previousVersion ++ padTo32 currentVersion)).val ++
      (sha256 (padTo32 epochBytes ++ List.replicate 32 0)).val)).val = goldenRoot := by
  decide!

/-! ## Lemmas on slices and memory -/

theorem length_writeAt (b : List Byte) (pos : Nat) (data : List Byte)
    (h : pos + data.length ≤ b.length) : (writeAt b pos data).length = b.length := by
  simp only [writeAt, List.length_append, List.length_take, List.length_drop]
  omega

theorem getElem?_writeAt (b : List Byte) (pos : Nat) (data : List Byte)
    (h : pos + data.length ≤ b.length) (m : Nat) :
    (writeAt b pos data)[m]? =
      if m < pos then b[m]? else if m < pos + data.length then data[m - pos]? else b[m]? := by
  have hl : (b.take pos).length = pos := by rw [List.length_take]; omega
  unfold writeAt
  by_cases h1 : m < pos
  · rw [if_pos h1, List.append_assoc, List.getElem?_append_left (by omega),
      List.getElem?_take_of_lt h1]
  · rw [if_neg h1]
    by_cases h2 : m < pos + data.length
    · rw [if_pos h2, List.getElem?_append_left (by simp; omega),
        List.getElem?_append_right (by omega), hl]
    · rw [if_neg h2, List.getElem?_append_right (by simp; omega), List.getElem?_drop]
      congr 1
      simp only [List.length_append, hl]
      omega

theorem getElem?_take_drop (x : List Byte) (o n j : Nat) :
    ((x.drop o).take n)[j]? = if j < n then x[o + j]? else none := by
  by_cases hj : j < n
  · rw [if_pos hj, List.getElem?_take_of_lt hj, List.getElem?_drop]
  · rw [if_neg hj]
    apply List.getElem?_eq_none
    simp only [List.length_take, List.length_drop]
    omega

/-- A write leaves the bytes outside the written range as they were. -/
theorem take_drop_writeAt (b : List Byte) (pos : Nat) (data : List Byte)
    (h : pos + data.length ≤ b.length) (o n : Nat)
    (hd : o + n ≤ pos ∨ pos + data.length ≤ o) :
    ((writeAt b pos data).drop o).take n = (b.drop o).take n := by
  apply List.ext_getElem?
  intro j
  rw [getElem?_take_drop, getElem?_take_drop]
  by_cases hj : j < n
  · rw [if_pos hj, if_pos hj, getElem?_writeAt b pos data h]
    rcases hd with hd | hd
    · rw [if_pos (by omega)]
    · rw [if_neg (by omega), if_neg (by omega)]
  · rw [if_neg hj, if_neg hj]

/-- After a write of `data` behind the first `n` bytes from `o`, these bytes
followed by `data` are read from `o`. -/
theorem take_drop_writeAt_self (b : List Byte) (o n : Nat) (data : List Byte)
    (h : o + n + data.length ≤ b.length) :
    ((writeAt b (o + n) data).drop o).take (n + data.length) = (b.drop o).take n ++ data := by
  apply List.ext_getElem?
  intro j
  rw [getElem?_take_drop, getElem?_writeAt b (o + n) data (by omega)]
  by_cases hj : j < n
  · rw [if_pos (by omega), if_pos (by omega),
      List.getElem?_append_left (by simp; omega), getElem?_take_drop, if_pos hj]
  · by_cases hj2 : j < n + data.length
    · rw [if_pos hj2, if_neg (by omega), if_pos (by omega),
        List.getElem?_append_right (by simp; omega)]
      congr 1
      simp only [List.length_take, List.length_drop]
      omega
    · rw [if_neg hj2]
      symm
      apply List.getElem?_eq_none
      simp only [List.length_append, List.length_take, List.length_drop]
      omega

theorem Exec.Rel.bind {α β γ δ : Type} {R : α → β → Prop} {S : γ → δ → Prop}
    {x : Exec α} {y : Exec β} {f : α → Exec γ} {g : β → Exec δ}
    (hxy : Exec.Rel R x y) (hfg : ∀ a b, R a b → Exec.Rel S (f a) (g b)) :
    Exec.Rel S (x.bind f) (y.bind g) := by
  cases x <;> cases y <;> simp_all [Exec.Rel, Exec.bind]

theorem Exec.Rel.eq {α : Type} {x y : Exec α} (h : Exec.Rel (fun a b => a = b) x y) : x = y := by
  cases x <;> cases y <;> simp_all [Exec.Rel]

theorem getD_set_heap (heap : Heap) (i j : Nat) (x : List Byte) :
    (heap.set i x).getD j [] = if i = j ∧ i < heap.length then x else heap.getD j [] := by
  simp only [List.getD_eq_getElem?_getD, List.getElem?_set]
  by_cases hij : i = j
  · subst hij
    by_cases hlt : i < heap.length
    · simp [hlt]
    · simp [hlt, List.getElem?_eq_none (not_lt.mp hlt)]
  · simp [hij]

theorem getD_append_heap (heap : Heap) (x : List Byte) (j : Nat) (hj : j < heap.length) :
    (heap ++ [x]).getD j [] = heap.getD j [] := by
  simp only [List.getD_eq_getElem?_getD, List.getElem?_append_left hj]

theorem length_readSlice (heap : Heap) (s : SliceHdr) (hlen : s.len ≤ s.cap)
    (hcap : s.off + s.cap ≤ (heap.getD s.buf []).length) : (readSlice heap s).length = s.len := by
  simp only [readSlice, List.length_take, List.length_drop]
  omega

theorem getD_append_last (heap : Heap) (x : List Byte) :
    (heap ++ [x]).getD heap.length [] = x := by
  simp [List.getD_eq_getElem?_getD]

/-- A memory with the same arrays up to the writes of one `append` keeps the
chunks separated when it keeps the lengths of the arrays. -/
theorem Separated.of_lengths {heap heap' : Heap} {chunks : List SliceHdr}
    (hsep : Separated heap chunks) (hlen : heap.length ≤ heap'.length)
    (harr : ∀ j, j < heap.length → (heap'.getD j []).length = (heap.getD j []).length) :
    Separated heap' chunks := by
  refine ⟨fun s hs => ?_, hsep.2⟩
  obtain ⟨h1, h2, h3⟩ := hsep.1 s hs
  exact ⟨by omega, h2, by rw [harr s.buf h1]; exact h3⟩

/-- On separated chunks, `append(l, r...)` returns the bytes of `l` followed by
those of `r`, keeps the chunks separated and changes the bytes of no chunk. -/
theorem appendSlice_spec (heap : Heap) (chunks : List SliceHdr) (hsep : Separated heap chunks)
    (l r : SliceHdr) (hl : l ∈ chunks) (hr : r ∈ chunks) :
    readSlice (appendSlice heap l r).1 (appendSlice heap l r).2
        = readSlice heap l ++ readSlice heap r ∧
      Separated (appendSlice heap l r).1 chunks ∧
      ∀ t ∈ chunks, readSlice (appendSlice heap l r).1 t = readSlice heap t := by
  obtain ⟨hl1, hl2, hl3⟩ := hsep.1 l hl
  obtain ⟨_, hr2, hr3⟩ := hsep.1 r hr
  have hdata : (readSlice heap r).length = r.len := length_readSlice heap r hr2 hr3
  have hldata : (readSlice heap l).length = l.len := length_readSlice heap l hl2 hl3
  unfold appendSlice
  generalize hdat : readSlice heap r = data at hdata ⊢
  by_cases hfit : l.len + r.len ≤ l.cap
  · rw [if_pos hfit]
    have hw : l.off + l.len + data.length ≤ (heap.getD l.buf []).length := by
      rw [hdata]; omega
    have hget : ∀ j, (heap.set l.buf (writeAt (heap.getD l.buf []) (l.off + l.len)
        data)).getD j []
        = if l.buf = j then writeAt (heap.getD l.buf []) (l.off + l.len) data
          else heap.getD j [] := by
      intro j
      rw [getD_set_heap]
      by_cases hj : l.buf = j
      · rw [if_pos ⟨hj, hl1⟩, if_pos hj]
      · rw [if_neg (fun h => hj h.1), if_neg hj]
    refine ⟨?_, ?_, ?_⟩
    · simp only [readSlice]
      rw [hget, if_pos rfl]
      have := take_drop_writeAt_self (heap.getD l.buf []) l.off l.len data hw
      rw [hdata] at this
      exact this
    · apply hsep.of_lengths (by simp)
      intro j _
      rw [hget]
      by_cases hj : l.buf = j
      · rw [if_pos hj, length_writeAt _ _ _ hw, hj]
      · rw [if_neg hj]
    · intro t ht
      simp only [readSlice]
      rw [hget]
      by_cases hj : l.buf = t.buf
      · rw [if_pos hj]
        have hd := hsep.2 l hl t ht hj
        rw [take_drop_writeAt (heap.getD l.buf []) (l.off + l.len) data hw
          t.off t.len (by rw [hdata]; omega), hj]
      · rw [if_neg hj]
  · rw [if_neg hfit]
    refine ⟨?_, ?_, ?_⟩
    · simp only [readSlice]
      rw [getD_append_last, List.drop_zero]
      apply List.take_of_length_le
      simp only [List.length_append]
      have h1 : (List.take l.len (List.drop l.off (heap.getD l.buf []))).length = l.len := hldata
      omega
    · apply hsep.of_lengths (by simp)
      intro j hj
      rw [getD_append_heap heap _ j hj]
    · intro t ht
      simp only [readSlice]
      rw [getD_append_heap heap _ t.buf (hsep.1 t ht).1]

/-- On separated chunks the inner loop on slice headers runs as the inner loop
on the bytes of the chunks: same outcome, same layer, and the chunks stay
separated with their bytes unchanged. -/
theorem layerLoopMem_sim (Hash : List Byte → Digest) (chunks : List SliceHdr)
    (vals : List (List Byte)) (n : Nat) : ∀ (fuel i : Nat) (layer : List Digest) (heap : Heap),
    Separated heap chunks → chunks.map (readSlice heap) = vals →
    Exec.Rel (fun (res : List Digest × Heap) (layer' : List Digest) =>
        res.1 = layer' ∧ Separated res.2 chunks ∧ chunks.map (readSlice res.2) = vals)
      (layerLoopMem Hash chunks n fuel i layer heap) (layerLoop Hash vals n fuel i layer) := by
  intro fuel
  induction fuel with
  | zero => intro i layer heap _ _; simp [layerLoopMem, layerLoop, Exec.Rel]
  | succ fuel ih =>
    intro i layer heap hsep hvals
    unfold layerLoopMem layerLoop
    by_cases hi : i < n
    · rw [if_pos hi, if_pos hi]
      have hv : ∀ j : Nat, vals[j]? = (chunks[j]?).map (readSlice heap) := by
        intro j; rw [← hvals, List.getElem?_map]
      rw [hv i, hv (i + 1)]
      cases hl : chunks[i]? with
      | none => simp [Exec.Rel]
      | some l =>
        cases hr : chunks[i + 1]? with
        | none => simp [Exec.Rel]
        | some r =>
          simp only [Option.map_some']
          have hlm : l ∈ chunks := List.getElem?_mem hl
          have hrm : r ∈ chunks := List.getElem?_mem hr
          obtain ⟨hread, hsep', hsame⟩ := appendSlice_spec heap chunks hsep l r hlm hrm
          rw [hread]
          apply ih _ _ _ hsep'
          rw [← hvals]
          exact List.map_congr_left hsame
    · rw [if_neg hi, if_neg hi]
      exact ⟨rfl, hsep, hvals⟩

/-- On separated chunks the outer loop on slice headers runs as the outer loop
on the bytes of the chunks. -/
theorem reduceLoopMem_sim (Hash : List Byte → Digest) (chunks : List SliceHdr)
    (vals : List (List Byte)) (innerFuel : Nat) :
    ∀ (fuel : Nat) (hashLayer : List Digest) (heap : Heap),
    Separated heap chunks → chunks.map (readSlice heap) = vals →
    Exec.Rel (fun (res : List Digest × Heap) (layer' : List Digest) =>
        res.1 = layer' ∧ Separated res.2 chunks ∧ chunks.map (readSlice res.2) = vals)
      (reduceLoopMem Hash chunks innerFuel fuel hashLayer heap)
      (reduceLoop Hash vals innerFuel fuel hashLayer) := by
  intro fuel
  induction fuel with
  | zero => intro hashLayer heap _ _; simp [reduceLoopMem, reduceLoop, Exec.Rel]
  | succ fuel ih =>
    intro hashLayer heap hsep hvals
    unfold reduceLoopMem reduceLoop
    by_cases hgt : hashLayer.length > 1
    · rw [if_pos hgt, if_pos hgt]
      refine Exec.Rel.bind
        (layerLoopMem_sim Hash chunks vals hashLayer.length innerFuel 0 [] heap hsep hvals) ?_
      intro res layer' hres
      obtain ⟨hlayer, hsep', hvals'⟩ := hres
      subst hlayer
      exact ih res.1 res.2 hsep' hvals'
    · rw [if_neg hgt, if_neg hgt]
      exact ⟨rfl, hsep, hvals⟩

/-- A new array of zero bytes keeps the chunks separated. -/
theorem Separated.push_zero {heap : Heap} {chunks : List SliceHdr}
    (hsep : Separated heap chunks) :
    Separated (heap ++ [makeBytes BytesPerChunk])
        (chunks ++ [SliceHdr.mk heap.length 0 BytesPerChunk BytesPerChunk]) ∧
      (chunks ++ [SliceHdr.mk heap.length 0 BytesPerChunk BytesPerChunk]).map
          (readSlice (heap ++ [makeBytes BytesPerChunk]))
        = chunks.map (readSlice heap) ++ [makeBytes BytesPerChunk] := by
  have hold : ∀ s ∈ chunks, (heap ++ [makeBytes BytesPerChunk]).getD s.buf []
      = heap.getD s.buf [] := fun s hs => getD_append_heap heap _ s.buf (hsep.1 s hs).1
  refine ⟨⟨?_, ?_⟩, ?_⟩
  · intro s hs
    rcases List.mem_append.mp hs with hs | hs
    · obtain ⟨h1, h2, h3⟩ := hsep.1 s hs
      exact ⟨by simp; omega, h2, by rw [hold s hs]; exact h3⟩
    · rw [List.mem_singleton.mp hs]
      refine ⟨by simp, le_refl _, ?_⟩
      simp only [getD_append_last]
      simp [makeBytes]
  · intro s hs t ht hbuf
    rcases List.mem_append.mp hs with hs | hs
    · rcases List.mem_append.mp ht with ht | ht
      · exact hsep.2 s hs t ht hbuf
      · rw [List.mem_singleton.mp ht] at hbuf
        have := (hsep.1 s hs).1
        simp only at hbuf
        omega
    · rcases List.mem_append.mp ht with ht | ht
      · rw [List.mem_singleton.mp hs] at hbuf
        have := (hsep.1 t ht).1
        simp only at hbuf
        omega
      · rw [List.mem_singleton.mp hs, List.mem_singleton.mp ht]
        left; exact le_refl _
  · rw [List.map_append, List.map_singleton]
    congr 1
    · exact List.map_congr_left fun s hs => by simp only [readSlice, hold s hs]
    · simp [readSlice, getD_append_last, makeBytes, BytesPerChunk]

/-- On separated chunks the padding loop on slice headers runs as the padding
loop on the bytes of the chunks. -/
theorem padLoopMem_sim : ∀ (fuel : Nat) (heap : Heap) (chunks : List SliceHdr),
    Separated heap chunks →
    Exec.Rel (fun (res : Heap × List SliceHdr) (vals : List (List Byte)) =>
        Separated res.1 res.2 ∧ res.2.map (readSlice res.1) = vals)
      (padLoopMem fuel heap chunks) (padLoop fuel (chunks.map (readSlice heap))) := by
  intro fuel
  induction fuel with
  | zero => intro heap chunks _; simp [padLoopMem, padLoop, Exec.Rel]
  | succ fuel ih =>
    intro heap chunks hsep
    unfold padLoopMem padLoop
    rw [List.length_map]
    cases hp : isPowerTwo chunks.length with
    | true => exact ⟨hsep, rfl⟩
    | false =>
      simp only [Bool.not_false, if_true]
      rw [← hsep.push_zero.2]
      exact ih _ _ hsep.push_zero.1

/-- On separated chunks `merkleize` on slice headers returns what `merkleize`
returns on the bytes of the chunks, for every hash function and every fuel. -/
theorem merkleizeMem_eq_merkleize (Hash : List Byte → Digest) (fuel : Nat) (heap : Heap)
    (chunks : List SliceHdr) (hsep : Separated heap chunks) :
    merkleizeMem Hash fuel heap chunks = merkleize Hash fuel (chunks.map (readSlice heap)) := by
  unfold merkleizeMem merkleize
  rw [List.length_map]
  by_cases h1 : chunks.length = 1
  · rw [if_pos h1, if_pos h1, List.getElem?_map]
    cases chunks[0]? <;> rfl
  · rw [if_neg h1, if_neg h1]
    apply Exec.Rel.eq
    refine Exec.Rel.bind (padLoopMem_sim fuel heap chunks hsep) ?_
    intro padded vals hpad
    obtain ⟨hsep', hvals⟩ := hpad
    have hlen : padded.2.length = vals.length := by rw [← hvals, List.length_map]
    simp only [hlen]
    refine Exec.Rel.bind
      (reduceLoopMem_sim Hash padded.2 vals fuel fuel (List.replicate vals.length zeroDigest)
        padded.1 hsep' hvals) ?_
    intro res layer' hres
    obtain ⟨hlayer, _, _⟩ := hres
    subst hlayer
    cases res.1[0]? <;> simp [Exec.Rel]

/-- The padding loop on slice headers stops at once on a power of two. -/
theorem padLoopMem_of_isPowerTwo (fuel : Nat) (heap : Heap) (chunks : List SliceHdr)
    (h : isPowerTwo chunks.length = true) :
    padLoopMem (fuel + 1) heap chunks = .done (heap, chunks) := by
  simp [padLoopMem, h]

/-- On the sample chunks that share an array, `merkleize` returns the hash of
the first chunk followed by the last one. -/
theorem merkleizeMem_alias (last : List Byte) (hlast : last.length = 32) :
    merkleizeMem sampleHash 8 (aliasHeap last) aliasChunks
      = .done (sampleHash (sampleChunk 1 ++ last), none) := by
  have hp : isPowerTwo aliasChunks.length = true := isPowerTwo_pow 2
  unfold merkleizeMem
  rw [if_neg (by decide), padLoopMem_of_isPowerTwo 7 _ _ hp]
  simp only [Exec.bind]
  have ht : List.take 32 last = last := List.take_of_length_le (le_of_eq hlast)
  simp [reduceLoopMem, layerLoopMem, aliasChunks, aliasHeap, appendSlice, readSlice, writeAt,
    Exec.bind, hlast, sampleChunk, ht]

/-! ## The claims, continued -/

/-- C11: `mixInLength(r, b)` and `mixInType(r, b)` are both `Hash(r ++ b)`, the
root first and the metadata second, with one application of `Hash`; hence they
are equal. -/
theorem mixIn_eq_hash (Hash : List Byte → Digest) (r : Digest) (b : List Byte) :
    mixInLength Hash r b = Hash (r.val ++ b) ∧ mixInType Hash r b = Hash (r.val ++ b) ∧
      mixInType Hash r b = mixInLength Hash r b :=
  ⟨rfl, rfl, rfl⟩

/-- C12: if `Hash` has no collision among the byte strings of `inputs`, and
`r ++ L1` and `r ++ L2` are among them, then `L1 ≠ L2` gives
`mixInLength(r, L1) ≠ mixInLength(r, L2)`. An injective `Hash` has no collision
on any `inputs`. -/
theorem mixInLength_ne_of_ne (Hash : List Byte → Digest) (inputs : List (List Byte))
    (hfree : ∀ x ∈ inputs, ∀ y ∈ inputs, Hash x = Hash y → x = y)
    (r : Digest) (L1 L2 : List Byte) (h1 : r.val ++ L1 ∈ inputs) (h2 : r.val ++ L2 ∈ inputs)
    (hne : L1 ≠ L2) : mixInLength Hash r L1 ≠ mixInLength Hash r L2 := by
  intro heq
  exact hne (List.append_cancel_left (hfree _ h1 _ h2 heq))

/-- Witness for C12 with `sampleHash`, the zero root and the lengths `01` and `02`. -/
theorem mixInLength_ne_of_ne_witness :
    (∀ x ∈ [zeroDigest.val ++ [1], zeroDigest.val ++ [2]],
      ∀ y ∈ [zeroDigest.val ++ [1], zeroDigest.val ++ [2]],
        sampleHash x = sampleHash y → x = y) ∧
      ([1] : List Byte) ≠ [2] ∧
      mixInLength sampleHash zeroDigest [1] ≠ mixInLength sampleHash zeroDigest [2] :=
  ⟨by decide, by decide,
    mixInLength_ne_of_ne sampleHash [zeroDigest.val ++ [1], zeroDigest.val ++ [2]] (by decide)
      zeroDigest [1] [2] (by decide) (by decide) (by decide)⟩

/-- C13: with SHA-256 as hash, `merkleize(pack([r1, r2, r3]))` over the field
roots of the record of `TestHashTreeRoot` is `8a1695d1..b623`, the digest of
`r1 ++ r2`, and not the golden root `3ad1264c..4992`; the golden root is the
root of the binary hash tree over `r1, r2, r3`. -/
theorem forkRoot_is_not_goldenRoot :
    (forkRoot sha256 40).bind (fun root => .done root.val) = .done codeRoot ∧
      codeRoot ≠ goldenRoot ∧
      specMerkleRoot sha256 [padTo32 previousVersion, padTo32 currentVersion, padTo32 epochBytes]
        = some goldenRoot := by
  refine ⟨?_, by decide, ?_⟩
  · rw [forkRoot_eq sha256]
    simp only [Exec.bind]
    rw [sha256_first_field_roots]
  · rw [specMerkleRoot_three, sha256_tree_of_field_roots]

/-- C14: starting from the empty (cold) cache, a sequence of calls, each made
with the cache enabled or disabled as `useCache` then stands, returns the
computed roots, provided the fingerprint tells apart the values of the
sequence that have different roots. So it returns the same roots as the calls
made with the cache disabled throughout, and as the same calls made under any
other settings of the switch; for calls on one unchanged value this needs no
assumption. -/
theorem cache_transparent {V K : Type} [DecidableEq K] (fingerprint : V → K)
    (computeRoot : V → Digest) (calls : List (Bool × V))
    (hsound : ∀ c ∈ calls, ∀ d ∈ calls,
      fingerprint c.2 = fingerprint d.2 → computeRoot c.2 = computeRoot d.2) :
    rootsOfCalls fingerprint computeRoot [] calls = calls.map (fun c => computeRoot c.2) ∧
      rootsOfCalls fingerprint computeRoot [] calls
        = rootsOfCalls fingerprint computeRoot [] (calls.map fun c => (false, c.2)) ∧
      (∀ calls' : List (Bool × V), calls'.map Prod.snd = calls.map Prod.snd →
        rootsOfCalls fingerprint computeRoot [] calls'
          = rootsOfCalls fingerprint computeRoot [] calls) ∧
      ∀ (val : V) (switches : List Bool),
        rootsOfCalls fingerprint computeRoot [] (switches.map fun b => (b, val))
          = switches.map fun _ => computeRoot val := by
  have hsound' : ∀ v ∈ calls.map Prod.snd, ∀ w ∈ calls.map Prod.snd,
      fingerprint v = fingerprint w → computeRoot v = computeRoot w := by
    intro v hv w hw
    obtain ⟨c, hc, rfl⟩ := List.mem_map.mp hv
    obtain ⟨d, hd, rfl⟩ := List.mem_map.mp hw
    exact hsound c hc d hd
  have key : ∀ calls' : List (Bool × V), calls'.map Prod.snd = calls.map Prod.snd →
      rootsOfCalls fingerprint computeRoot [] calls'
        = (calls.map Prod.snd).map computeRoot := by
    intro calls' hvals
    rw [rootsOfCalls_eq_map fingerprint computeRoot (calls.map Prod.snd) hsound' calls' []
      (fun c hc => by rw [← hvals]; exact List.mem_map_of_mem _ hc) (by simp), ← hvals,
      List.map_map]
    rfl
  have hmap : (calls.map Prod.snd).map computeRoot = calls.map (fun c => computeRoot c.2) := by
    rw [List.map_map]; rfl
  refine ⟨by rw [key calls rfl, hmap], ?_, ?_, ?_⟩
  · rw [key calls rfl, key (calls.map fun c => (false, c.2)) (by rw [List.map_map]; rfl)]
  · intro calls' hvals
    rw [key calls' hvals, key calls rfl]
  · intro val switches
    rw [rootsOfCalls_eq_map fingerprint computeRoot [val] (by
        intro v hv w hw _
        rw [List.mem_singleton.mp hv, List.mem_singleton.mp hw])
      (switches.map fun b => (b, val)) [] (by
        intro c hc
        obtain ⟨b, _, rfl⟩ := List.mem_map.mp hc
        exact List.mem_singleton_self _) (by simp), List.map_map]
    rfl

/-- Witness for C14 with the value itself as fingerprint, `sampleHash` as the
root computation and the calls `01` (enabled), `02` (disabled), `01` (enabled),
`02` (enabled). -/
theorem cache_transparent_witness :
    (∀ c ∈ ([(true, [1]), (false, [2]), (true, [1]), (true, [2])] : List (Bool × List Byte)),
      ∀ d ∈ ([(true, [1]), (false, [2]), (true, [1]), (true, [2])] : List (Bool × List Byte)),
        id c.2 = id d.2 → sampleHash c.2 = sampleHash d.2) ∧
      rootsOfCalls id sampleHash []
          ([(true, [1]), (false, [2]), (true, [1]), (true, [2])] : List (Bool × List Byte))
        = [sampleHash [1], sampleHash [2], sampleHash [1], sampleHash [2]] :=
  ⟨by decide,
    (cache_transparent id sampleHash [(true, [1]), (false, [2]), (true, [1]), (true, [2])]
      (by decide)).1⟩

/-- C15: on a chunk sequence of length other than 1, with fuel at least twice
the number of chunks plus 2, the reduction loop of `merkleize` runs through
layers whose lengths are powers of two, each layer half as long as the one
before, and ends with a layer of exactly one element, which `merkleize`
returns as the root. -/
theorem merkleize_layers (Hash : List Byte → Digest) (fuel : Nat) (chunks : List (List Byte))
    (hn : chunks.length ≠ 1) (hfuel : 2 * chunks.length + 2 ≤ fuel) :
    ∃ padded layers root,
      padLoop fuel chunks = .done padded ∧
      reduceLayers Hash padded fuel fuel (List.replicate padded.length zeroDigest)
        = .done layers ∧
      (∀ l ∈ layers, ∃ i, l.length = 2 ^ i) ∧
      List.Chain' (fun l l' : List Digest => l.length = 2 * l'.length) layers ∧
      layers.getLast? = some [root] ∧
      merkleize Hash fuel chunks = .done (root, none) := by
  have hpad := padLoop_eq fuel chunks
  have hle : chunks.length ≤ 2 ^ Nat.clog 2 chunks.length := Nat.le_pow_clog (by norm_num) _
  have hup : 2 ^ Nat.clog 2 chunks.length ≤ 2 * chunks.length + 1 := by
    rcases Nat.lt_or_ge chunks.length 2 with hlt | hge
    · have h0 : chunks.length = 0 := by omega
      simp [h0]
    · have := padCount_lt chunks.length hge
      unfold padCount at this
      omega
  have hcount : padCount chunks.length < fuel := by unfold padCount; omega
  rw [if_pos hcount] at hpad
  have hlen : (chunks ++ List.replicate (padCount chunks.length) (makeBytes BytesPerChunk)).length
      = 2 ^ Nat.clog 2 chunks.length := by
    simp only [List.length_append, List.length_replicate, padCount]; omega
  have hlog : Nat.clog 2 chunks.length < fuel := by
    have := Nat.lt_two_pow (Nat.clog 2 chunks.length)
    omega
  obtain ⟨layers, root, hrec, _, hpow, hchain, hlast, hred⟩ :=
    reduceLayers_pow Hash (chunks ++ List.replicate (padCount chunks.length)
      (makeBytes BytesPerChunk)) fuel (Nat.clog 2 chunks.length) fuel
      (List.replicate (chunks ++ List.replicate (padCount chunks.length)
        (makeBytes BytesPerChunk)).length zeroDigest)
      (by rw [List.length_replicate, hlen]) (by rw [hlen]) (by omega) hlog
  refine ⟨_, layers, root, hpad, hrec, hpow, hchain, hlast, ?_⟩
  unfold merkleize
  rw [if_neg hn, hpad]
  simp only [Exec.bind, hred]
  rfl

/-- Witness for C15 at three chunks and fuel 8. -/
theorem merkleize_layers_witness :
    [sampleChunk 1, sampleChunk 2, sampleChunk 3].length ≠ 1 ∧
      2 * [sampleChunk 1, sampleChunk 2, sampleChunk 3].length + 2 ≤ 8 ∧
      ∃ padded layers root,
        padLoop 8 [sampleChunk 1, sampleChunk 2, sampleChunk 3] = .done padded ∧
        reduceLayers sampleHash padded 8 8 (List.replicate padded.length zeroDigest)
          = .done layers ∧
        (∀ l ∈ layers, ∃ i, l.length = 2 ^ i) ∧
        List.Chain' (fun l l' : List Digest => l.length = 2 * l'.length) layers ∧
        layers.getLast? = some [root] ∧
        merkleize sampleHash 8 [sampleChunk 1, sampleChunk 2, sampleChunk 3]
          = .done (root, none) :=
  ⟨by decide, by decide,
    merkleize_layers sampleHash 8 [sampleChunk 1, sampleChunk 2, sampleChunk 3]
      (by decide) (by decide)⟩

/-- C16: a chunk sequence returned by `pack` is never empty. -/
theorem pack_result_nonempty (fuel : Nat) (items chunks : List (List Byte)) (err : GoError)
    (h : pack fuel items = .done (chunks, err)) : chunks ≠ [] ∧ 1 ≤ chunks.length := by
  obtain ⟨_, c, cs, hc, _⟩ := pack_done_head fuel items chunks err h
  subst hc
  exact ⟨by simp, by simp⟩

/-- Witness for C16 at the single item `01 02 03`. -/
theorem pack_result_nonempty_witness :
    pack 40 [[1, 2, 3]] = .done ([padTo32 [1, 2, 3]], none) ∧
      ([padTo32 [1, 2, 3]] ≠ [] ∧ 1 ≤ [padTo32 [1, 2, 3]].length) :=
  ⟨by decide, pack_result_nonempty 40 [[1, 2, 3]] [padTo32 [1, 2, 3]] none (by decide)⟩

/-- C17 fails as stated: on the chunks `01 00..`, `02 00..`, `03 00..`, `last`,
where the second chunk lies in the spare capacity of the third, `merkleize`
returns `Hash(chunks[0] ++ last)` and not `Hash(chunks[0] ++ chunks[1])`: the
sequences with `last = 04 00..` and with `last = 05 00..` have the same first
two chunks and different roots. -/
theorem merkleizeMem_alias_depends_on_tail :
    aliasChunks.map (readSlice (aliasHeap (sampleChunk 4)))
        = [sampleChunk 1, sampleChunk 2, sampleChunk 3, sampleChunk 4] ∧
      aliasChunks.map (readSlice (aliasHeap (sampleChunk 5)))
        = [sampleChunk 1, sampleChunk 2, sampleChunk 3, sampleChunk 5] ∧
      merkleizeMem sampleHash 8 (aliasHeap (sampleChunk 4)) aliasChunks
        = .done (sampleHash (sampleChunk 1 ++ sampleChunk 4), none) ∧
      merkleizeMem sampleHash 8 (aliasHeap (sampleChunk 5)) aliasChunks
        = .done (sampleHash (sampleChunk 1 ++ sampleChunk 5), none) ∧
      sampleHash (sampleChunk 1 ++ sampleChunk 4) ≠ sampleHash (sampleChunk 1 ++ sampleChunk 2) ∧
      sampleHash (sampleChunk 1 ++ sampleChunk 4) ≠ sampleHash (sampleChunk 1 ++ sampleChunk 5) :=
  ⟨by decide, by decide, merkleizeMem_alias (sampleChunk 4) (by decide),
    merkleizeMem_alias (sampleChunk 5) (by decide), by decide, by decide⟩

/-- C17, amended: on two or more chunks that lie within their backing arrays,
the bytes of no chunk lying in the spare capacity of a chunk of the sequence,
`merkleize` returns `Hash(chunks[0] ++ chunks[1])` (for every fuel from twice
the number of chunks on), so two such sequences with the same first two chunks
get the same root. -/
theorem merkleizeMem_ignores_tail (Hash : List Byte → Digest) (fuel : Nat) (heap : Heap)
    (c0 c1 : SliceHdr) (rest rest' : List SliceHdr)
    (hsep : Separated heap (c0 :: c1 :: rest)) (hsep' : Separated heap (c0 :: c1 :: rest'))
    (hfuel : 2 * (rest.length + 2) ≤ fuel) (hfuel' : 2 * (rest'.length + 2) ≤ fuel) :
    merkleizeMem Hash fuel heap (c0 :: c1 :: rest)
        = .done (Hash (readSlice heap c0 ++ readSlice heap c1), none) ∧
      merkleizeMem Hash fuel heap (c0 :: c1 :: rest')
        = merkleizeMem Hash fuel heap (c0 :: c1 :: rest) := by
  rw [merkleizeMem_eq_merkleize Hash fuel heap _ hsep,
    merkleizeMem_eq_merkleize Hash fuel heap _ hsep']
  simp only [List.map_cons]
  rw [merkleize_eq_hash_first_pair Hash fuel _ _ _ (by simpa using hfuel),
    merkleize_eq_hash_first_pair Hash fuel _ _ _ (by simpa using hfuel')]
  exact ⟨rfl, rfl⟩

/-- Witness for C17 on `apartHeap`, with the tails `[03 00.., 04 00..]` and
`[03 00..]`; the first chunk has spare capacity and is appended to in place. -/
theorem merkleizeMem_ignores_tail_witness :
    Separated apartHeap (⟨0, 0, 32, 64⟩ :: ⟨1, 0, 32, 32⟩ :: [⟨2, 0, 32, 32⟩, ⟨3, 0, 32, 32⟩]) ∧
      Separated apartHeap (⟨0, 0, 32, 64⟩ :: ⟨1, 0, 32, 32⟩ :: [⟨2, 0, 32, 32⟩]) ∧
      (merkleizeMem sampleHash 8 apartHeap
          (⟨0, 0, 32, 64⟩ :: ⟨1, 0, 32, 32⟩ :: [⟨2, 0, 32, 32⟩, ⟨3, 0, 32, 32⟩])
          = .done (sampleHash (readSlice apartHeap ⟨0, 0, 32, 64⟩
              ++ readSlice apartHeap ⟨1, 0, 32, 32⟩), none) ∧
        merkleizeMem sampleHash 8 apartHeap (⟨0, 0, 32, 64⟩ :: ⟨1, 0, 32, 32⟩ :: [⟨2, 0, 32, 32⟩])
          = merkleizeMem sampleHash 8 apartHeap
              (⟨0, 0, 32, 64⟩ :: ⟨1, 0, 32, 32⟩ :: [⟨2, 0, 32, 32⟩, ⟨3, 0, 32, 32⟩])) :=
  ⟨by unfold Separated; decide, by unfold Separated; decide,
    merkleizeMem_ignores_tail sampleHash 8 apartHeap ⟨0, 0, 32, 64⟩ ⟨1, 0, 32, 32⟩
      [⟨2, 0, 32, 32⟩, ⟨3, 0, 32, 32⟩] [⟨2, 0, 32, 32⟩]
      (by unfold Separated; decide) (by unfold Separated; decide) (by decide) (by decide)⟩

/-- C18: on a non-empty chunk sequence `merkleize` returns a root with a nil
error, for every fuel from twice the number of chunks on: it neither panics
nor runs for ever. -/
theorem merkleize_returns (Hash : List Byte → Digest) (chunks : List (List Byte))
    (hne : chunks ≠ []) :
    ∃ root, ∀ fuel, 2 * chunks.length ≤ fuel → merkleize Hash fuel chunks = .done (root, none) := by
  match chunks, hne with
  | [c], _ => exact ⟨copyToRoot c, fun fuel _ => by simp [merkleize]⟩
  | c0 :: c1 :: rest, _ =>
    exact ⟨Hash (c0 ++ c1), fun fuel hfuel =>
      merkleize_eq_hash_first_pair Hash fuel c0 c1 rest (by simpa using hfuel)⟩

/-- Witness for C18 at three chunks. -/
theorem merkleize_returns_witness :
    [sampleChunk 1, sampleChunk 2, sampleChunk 3] ≠ [] ∧
      ∃ root, ∀ fuel, 2 * [sampleChunk 1, sampleChunk 2, sampleChunk 3].length ≤ fuel →
        merkleize sampleHash fuel [sampleChunk 1, sampleChunk 2, sampleChunk 3]
          = .done (root, none) :=
  ⟨by decide, merkleize_returns sampleHash [sampleChunk 1, sampleChunk 2, sampleChunk 3]
    (by decide)⟩

/-- C19: `pack` is idempotent: if `pack` returns `chunks` on `items`, then
`pack` returns `chunks` on `chunks`, whatever the fuel. -/
theorem pack_idempotent (fuel fuel' : Nat) (items chunks : List (List Byte)) (err : GoError)
    (h : pack fuel items = .done (chunks, err)) :
    pack fuel' chunks = .done (chunks, err) ∧ pack fuel' chunks = pack fuel items := by
  obtain ⟨he, c, cs, hc, hlen⟩ := pack_done_head fuel items chunks err h
  subst hc he
  rw [h]
  exact ⟨pack_of_head_full fuel' c cs hlen, pack_of_head_full fuel' c cs hlen⟩

/-- Witness for C19 at the single item `01 02 03`. -/
theorem pack_idempotent_witness :
    pack 40 [[1, 2, 3]] = .done ([padTo32 [1, 2, 3]], none) ∧
      (pack 0 [padTo32 [1, 2, 3]] = .done ([padTo32 [1, 2, 3]], none) ∧
        pack 0 [padTo32 [1, 2, 3]] = pack 40 [[1, 2, 3]]) :=
  ⟨by decide, pack_idempotent 40 0 [[1, 2, 3]] [padTo32 [1, 2, 3]] none (by decide)⟩

/-- C20: with the rounding of `float64(num)` kept, `isPowerTwo` answers true on
`2^62 + 1 = 4611686018427387905`, which is not a power of two: the conversion
rounds it to `2^62`, whose base-2 logarithm is the whole number 62. On 0 the
answer is false and on 1 it is true. -/
theorem isPowerTwo_true_on_rounded_input :
    (∀ logIsWhole : Nat → Bool,
      isPowerTwoFloat64 logIsWhole 4611686018427387905 = true ∧
      isPowerTwoFloat64 logIsWhole 0 = false ∧ isPowerTwoFloat64 logIsWhole 1 = true) ∧
      toFloat64 4611686018427387905 = 2 ^ 62 ∧
      ¬ ∃ k : Nat, 4611686018427387905 = 2 ^ k := by
  refine ⟨fun logIsWhole => ⟨?_, ?_, ?_⟩, by decide, ?_⟩
  · unfold isPowerTwoFloat64
    rw [if_neg (by decide), if_pos (by decide)]
  · unfold isPowerTwoFloat64
    rw [if_pos rfl]
  · unfold isPowerTwoFloat64
    rw [if_neg (by decide), if_pos (by decide)]
  · rintro ⟨k, hk⟩
    rcases Nat.lt_or_ge k 63 with hlt | hge
    · have : 2 ^ k ≤ 2 ^ 62 := Nat.pow_le_pow_right (by norm_num) (by omega)
      norm_num at this
      omega
    · have : 2 ^ 63 ≤ 2 ^ k := Nat.pow_le_pow_right (by norm_num) hge
      norm_num at this
      omega

end SSZ
